import Mathlib

/-!
Verification development for the MERIDIAN brain core
(`brain/scripts/auto_linker.py`, `brain/scripts/repl_environment.py`,
`brain/scripts/recall_operation.py`, `brain/scripts/cache_system.py`).

Python dictionaries are modelled as insertion-ordered association lists
(`List (K × V)`): lookup returns the first matching key, assignment
replaces the value at an existing key in place and otherwise appends,
which is exactly CPython's observable dict behaviour for the programs
embedded here (every dict in the source has unique keys by construction).
Python floats are modelled as rationals; every numeric claim checked
below evaluates to the same value under IEEE-754 double arithmetic on
the inputs the spec names (0.3 + 2*0.2 == 0.7 and min(0.9, 0.3 + 3*0.2)
== 0.9 hold exactly for doubles).
-/

namespace Meridian

/-- `m.get(k)` / `m[k]` read on a Python dict: first matching key. -/
def dget {K V : Type} [DecidableEq K] : List (K × V) → K → Option V
  | [], _ => none
  | (k', v) :: rest, k => if k' = k then some v else dget rest k

/-- `m.get(k, d)` on a Python dict. -/
def dgetD {K V : Type} [DecidableEq K] (m : List (K × V)) (k : K) (d : V) : V :=
  (dget m k).getD d

/-- `k in m` on a Python dict. -/
def dmem {K V : Type} [DecidableEq K] (m : List (K × V)) (k : K) : Bool :=
  (dget m k).isSome

/-- `m[k] = v` on a Python dict: replace in place if the key exists,
append otherwise (CPython preserves insertion order). -/
def dset {K V : Type} [DecidableEq K] : List (K × V) → K → V → List (K × V)
  | [], k, v => [(k, v)]
  | (k', w) :: rest, k, v =>
      if k' = k then (k, v) :: rest else (k', w) :: dset rest k v

theorem dget_dset_self {K V : Type} [DecidableEq K] (m : List (K × V)) (k : K) (v : V) :
    dget (dset m k v) k = some v := by
  induction m with
  | nil => simp [dget, dset]
  | cons p rest ih =>
      obtain ⟨k', w⟩ := p
      by_cases h : k' = k <;> simp [dget, dset, h, ih]

theorem dget_dset_ne {K V : Type} [DecidableEq K] (m : List (K × V)) (k k' : K) (v : V)
    (h : k' ≠ k) : dget (dset m k v) k' = dget m k' := by
  induction m with
  | nil => simp [dget, dset, Ne.symm h]
  | cons p rest ih =>
      obtain ⟨k₀, w⟩ := p
      by_cases h0 : k₀ = k
      · subst h0
        simp [dget, dset, Ne.symm h]
      · simp [dget, dset, h0, ih]

theorem dset_dget_eq {K V : Type} [DecidableEq K] (m : List (K × V)) (k : K) (v : V)
    (h : dget m k = some v) : dset m k v = m := by
  induction m with
  | nil => simp [dget] at h
  | cons p rest ih =>
      obtain ⟨k', w⟩ := p
      by_cases h0 : k' = k
      · subst h0
        simp [dget] at h
        simp [dset, h]
      · simp [dget, h0] at h
        simp [dset, h0, ih h]

theorem dmem_of_dget {K V : Type} [DecidableEq K] {m : List (K × V)} {k : K} {v : V}
    (h : dget m k = some v) : dmem m k = true := by
  simp [dmem, h]

/-- A key written by `dset` is present afterwards. -/
theorem dmem_dset_self {K V : Type} [DecidableEq K] (m : List (K × V)) (k : K) (v : V) :
    dmem (dset m k v) k = true := by
  simp [dmem, dget_dset_self]

/-- First-occurrence deduplication, the model of Python's `list(set(l))`
(CPython's set iteration order is unspecified; the claims below only use
such results as sets). -/
def pydedup {α : Type} [DecidableEq α] : List α → List α
  | [] => []
  | a :: rest => a :: (pydedup rest).filter (fun b => decide (b ≠ a))

theorem mem_pydedup {α : Type} [DecidableEq α] (x : α) (l : List α) :
    x ∈ pydedup l ↔ x ∈ l := by
  induction l with
  | nil => simp [pydedup]
  | cons a rest ih =>
      by_cases h : x = a
      · subst h
        simp [pydedup]
      · simp [pydedup, List.mem_filter, h, ih]

theorem pydedup_nodup {α : Type} [DecidableEq α] (l : List α) : (pydedup l).Nodup := by
  induction l with
  | nil => simp [pydedup]
  | cons a rest ih =>
      refine List.Nodup.cons ?_ (List.Nodup.filter _ ih)
      intro hmem
      have := (List.mem_filter.mp hmem).2
      simp at this

/-! ## Link graph (`auto_linker.py`, class `LinkGraph`)

`LinkGraph` keeps two nested dicts (lines 43-44):
`_forward : chunk -> (link_type -> [targets])` and
`_reverse : chunk -> (link_type ++ "_reverse" -> [sources])`.
Disk persistence (`_load`/`_save`) is outside the model: the structure
below *is* the persisted state. -/

structure LinkGraph where
  forward : List (String × List (String × List String))
  reverse : List (String × List (String × List String))
  deriving DecidableEq

/-- Reverse-side update of `add_link`.  Lines 82-83 ensure the outer key,
lines 92-96 ensure the `link_type_reverse` inner list and append the
source; the source code then repeats exactly these updates at lines
99-104, which `add_link` below models by applying this function twice. -/
def reverseUpdate (rev : List (String × List (String × List String)))
    (to_id from_id link_type : String) : List (String × List (String × List String)) :=
  let rev := if dmem rev to_id then rev else dset rev to_id []
  let rt := link_type ++ "_reverse"
  let rinner := dgetD rev to_id []
  let rinner := if dmem rinner rt then rinner else dset rinner rt []
  let rsources := dgetD rinner rt []
  let rsources := if from_id ∈ rsources then rsources else rsources ++ [from_id]
  dset rev to_id (dset rinner rt rsources)

/-- Forward-side update of `add_link`: lines 80-81 ensure the outer key,
lines 86-89 ensure the `link_type` list and append the target if absent. -/
def forwardUpdate (fwd : List (String × List (String × List String)))
    (from_id to_id link_type : String) : List (String × List (String × List String)) :=
  let fwd := if dmem fwd from_id then fwd else dset fwd from_id []
  let finner := dgetD fwd from_id []
  let finner := if dmem finner link_type then finner else dset finner link_type []
  let ftargets := dgetD finner link_type []
  let ftargets := if to_id ∈ ftargets then ftargets else ftargets ++ [to_id]
  dset fwd from_id (dset finner link_type ftargets)

/-- `LinkGraph.add_link` (lines 70-111).  Adds the forward entry
`from -> to` under `link_type`, the reverse entry `to -> from` under
`link_type ++ "_reverse"` (twice, mirroring the repeated block at lines
99-104), and finally ensures `to` has a (possibly empty) forward dict
(lines 106-108).  `_save` (line 110) is the identity on the modelled
state. -/
def add_link (g : LinkGraph) (from_id to_id link_type : String) : LinkGraph :=
  let fwd := forwardUpdate g.forward from_id to_id link_type
  let rev := reverseUpdate g.reverse to_id from_id link_type
  let rev := reverseUpdate rev to_id from_id link_type
  let fwd := if dmem fwd to_id then fwd else dset fwd to_id []
  ⟨fwd, rev⟩

/-- Truthiness of the optional `link_type` argument: Python's
`if link_type:` is false for `None` and for the empty string. -/
def strOptTruthy : Option String → Bool
  | none => false
  | some s => s != ""

/-- `LinkGraph.get_outgoing` (lines 113-134).  With a (truthy) link type
it reads `_forward[chunk_id].get(link_type, [])`; without one it returns
`list(set(…))` of all targets, modelled as first-occurrence
deduplication of the concatenation (CPython's set iteration order is
unspecified; the claims below only use the result as a set). -/
def get_outgoing (g : LinkGraph) (chunk_id : String) (link_type : Option String) :
    List String :=
  match dget g.forward chunk_id with
  | none => []
  | some inner =>
      if strOptTruthy link_type then dgetD inner (link_type.getD "") []
      else pydedup ((inner.map Prod.snd).flatten)

/-- `LinkGraph.get_incoming` (lines 136-157): as `get_outgoing` but on
`_reverse`, looking up `link_type ++ "_reverse"` when a type is given. -/
def get_incoming (g : LinkGraph) (chunk_id : String) (link_type : Option String) :
    List String :=
  match dget g.reverse chunk_id with
  | none => []
  | some inner =>
      if strOptTruthy link_type then dgetD inner (link_type.getD "" ++ "_reverse") []
      else pydedup ((inner.map Prod.snd).flatten)

theorem reverseUpdate_reverseUpdate (rev : List (String × List (String × List String)))
    (to_id from_id link_type : String) :
    reverseUpdate (reverseUpdate rev to_id from_id link_type) to_id from_id link_type =
      reverseUpdate rev to_id from_id link_type := by
  simp only [reverseUpdate]
  set rev₀ := if dmem rev to_id then rev else dset rev to_id [] with hrev₀
  set rt := link_type ++ "_reverse" with hrt
  set rinner₀ := if dmem (dgetD rev₀ to_id []) rt then dgetD rev₀ to_id []
    else dset (dgetD rev₀ to_id []) rt [] with hrinner₀
  set rsources₀ := if from_id ∈ dgetD rinner₀ rt [] then dgetD rinner₀ rt []
    else dgetD rinner₀ rt [] ++ [from_id] with hrsources₀
  have hmem : from_id ∈ rsources₀ := by
    rw [hrsources₀]
    by_cases h : from_id ∈ dgetD rinner₀ rt []
    · simp [h]
    · simp [h]
  have hget1 : dget (dset rev₀ to_id (dset rinner₀ rt rsources₀)) to_id =
      some (dset rinner₀ rt rsources₀) := dget_dset_self ..
  have hdm : dmem (dset rev₀ to_id (dset rinner₀ rt rsources₀)) to_id = true :=
    dmem_of_dget hget1
  have hinner : dgetD (dset rev₀ to_id (dset rinner₀ rt rsources₀)) to_id [] =
      dset rinner₀ rt rsources₀ := by simp [dgetD, hget1]
  have hrtget : dget (dset rinner₀ rt rsources₀) rt = some rsources₀ := dget_dset_self ..
  have hrtdm : dmem (dset rinner₀ rt rsources₀) rt = true := dmem_of_dget hrtget
  have hrsrc : dgetD (dset rinner₀ rt rsources₀) rt [] = rsources₀ := by
    simp [dgetD, hrtget]
  rw [if_pos hdm, hinner, if_pos hrtdm, hrsrc, if_pos hmem,
    dset_dget_eq _ _ _ hrtget, dset_dget_eq _ _ _ hget1]

theorem dget_none_of_dmem_false {K V : Type} [DecidableEq K] {m : List (K × V)} {k : K}
    (h : dmem m k = false) : dget m k = none := by
  cases h' : dget m k with
  | none => rfl
  | some v => simp [dmem, h'] at h

theorem dget_ensure_self {K V : Type} [DecidableEq K] (m : List (K × V)) (k : K) (v₀ : V) :
    dget (if dmem m k then m else dset m k v₀) k = some (dgetD m k v₀) := by
  by_cases h : dmem m k
  · simp only [h, if_true]
    simp only [dmem] at h
    cases h' : dget m k with
    | none => simp [h'] at h
    | some v => simp [dgetD, h']
  · simp only [Bool.not_eq_true] at h
    simp [h, dget_dset_self, dgetD, dget_none_of_dmem_false h]

theorem dget_ensure_ne {K V : Type} [DecidableEq K] (m : List (K × V)) (k x : K) (v₀ : V)
    (h : x ≠ k) : dget (if dmem m k then m else dset m k v₀) x = dget m x := by
  by_cases h0 : dmem m k
  · simp [h0]
  · simp only [Bool.not_eq_true] at h0
    simp [h0, dget_dset_ne _ _ _ _ h]

theorem dgetD_ensure {K V : Type} [DecidableEq K] (m : List (K × V)) (k : K) (v₀ : V) :
    dgetD (if dmem m k then m else dset m k v₀) k v₀ = dgetD m k v₀ := by
  simp [dgetD, dget_ensure_self]

theorem dget_ensure_of_dmem {K V : Type} [DecidableEq K] {m : List (K × V)} {x : K}
    (k : K) (v₀ : V) (h : dmem m x = true) :
    dget (if dmem m k then m else dset m k v₀) x = dget m x := by
  by_cases h0 : dmem m k
  · simp [h0]
  · have hne : x ≠ k := by
      intro he
      rw [he] at h
      rw [h] at h0
      exact h0 rfl
    simp only [Bool.not_eq_true] at h0
    simp [h0, dget_dset_ne _ _ _ _ hne]

theorem dmem_ensure_self {K V : Type} [DecidableEq K] (m : List (K × V)) (k : K) (v₀ : V) :
    dmem (if dmem m k then m else dset m k v₀) k = true := by
  by_cases h : dmem m k
  · simp [h]
  · simp [h, dmem_dset_self]

theorem dgetD_dset_self {K V : Type} [DecidableEq K] (m : List (K × V)) (k : K) (v d : V) :
    dgetD (dset m k v) k d = v := by
  simp [dgetD, dget_dset_self]

theorem mem_append_if {α : Type} [DecidableEq α] (a : α) (l : List α) :
    a ∈ (if a ∈ l then l else l ++ [a]) := by
  by_cases h : a ∈ l
  · simp [h]
  · simp [h]

/-- After `forwardUpdate`, the `link_type` list under `from_id` is the old
list with `to_id` appended if it was absent. -/
theorem forwardUpdate_read_self (fwd : List (String × List (String × List String)))
    (f t ty : String) :
    dgetD (dgetD (forwardUpdate fwd f t ty) f []) ty [] =
      (if t ∈ dgetD (dgetD fwd f []) ty [] then dgetD (dgetD fwd f []) ty []
       else dgetD (dgetD fwd f []) ty [] ++ [t]) := by
  simp only [forwardUpdate]
  simp only [dgetD_dset_self, dgetD_ensure]

theorem forwardUpdate_establish (fwd : List (String × List (String × List String)))
    (f t ty : String) :
    ∃ inner l, dget (forwardUpdate fwd f t ty) f = some inner ∧
      dget inner ty = some l ∧ t ∈ l := by
  simp only [forwardUpdate]
  refine ⟨_, _, dget_dset_self .., dget_dset_self .., ?_⟩
  exact mem_append_if _ _

theorem forwardUpdate_dmem_self (fwd : List (String × List (String × List String)))
    (f t ty : String) : dmem (forwardUpdate fwd f t ty) f = true := by
  obtain ⟨inner, l, h, -, -⟩ := forwardUpdate_establish fwd f t ty
  exact dmem_of_dget h

theorem forwardUpdate_dget_ne (fwd : List (String × List (String × List String)))
    (f t ty x : String) (h : x ≠ f) :
    dget (forwardUpdate fwd f t ty) x = dget fwd x := by
  simp only [forwardUpdate]
  rw [dget_dset_ne _ _ _ _ h, dget_ensure_ne _ _ _ _ h]

theorem forwardUpdate_fixed {m : List (String × List (String × List String))}
    {inner : List (String × List String)}
    {l : List String} {f t ty : String} (h₁ : dget m f = some inner)
    (h₂ : dget inner ty = some l) (h₃ : t ∈ l) : forwardUpdate m f t ty = m := by
  simp only [forwardUpdate]
  rw [if_pos (dmem_of_dget h₁)]
  have hD : dgetD m f [] = inner := by simp [dgetD, h₁]
  rw [hD, if_pos (dmem_of_dget h₂)]
  have hDl : dgetD inner ty [] = l := by simp [dgetD, h₂]
  rw [hDl, if_pos h₃, dset_dget_eq _ _ _ h₂, dset_dget_eq _ _ _ h₁]

/-- After `reverseUpdate`, the `link_type ++ "_reverse"` list under `to_id`
is the old list with `from_id` appended if it was absent. -/
theorem reverseUpdate_read_self (rev : List (String × List (String × List String)))
    (t f ty : String) :
    dgetD (dgetD (reverseUpdate rev t f ty) t []) (ty ++ "_reverse") [] =
      (if f ∈ dgetD (dgetD rev t []) (ty ++ "_reverse") [] then
        dgetD (dgetD rev t []) (ty ++ "_reverse") []
       else dgetD (dgetD rev t []) (ty ++ "_reverse") [] ++ [f]) := by
  simp only [reverseUpdate]
  simp only [dgetD_dset_self, dgetD_ensure]

theorem reverseUpdate_dget_ne (rev : List (String × List (String × List String)))
    (t f ty x : String) (h : x ≠ t) :
    dget (reverseUpdate rev t f ty) x = dget rev x := by
  simp only [reverseUpdate]
  rw [dget_dset_ne _ _ _ _ h, dget_ensure_ne _ _ _ _ h]

theorem LinkGraph.ext_mk (a b : LinkGraph) (h1 : a.forward = b.forward)
    (h2 : a.reverse = b.reverse) : a = b := by
  cases a
  cases b
  simp_all

theorem add_link_forward (g : LinkGraph) (f t ty : String) :
    (add_link g f t ty).forward =
      (if dmem (forwardUpdate g.forward f t ty) t then forwardUpdate g.forward f t ty
       else dset (forwardUpdate g.forward f t ty) t []) := rfl

theorem add_link_reverse (g : LinkGraph) (f t ty : String) :
    (add_link g f t ty).reverse = reverseUpdate g.reverse t f ty := by
  show reverseUpdate (reverseUpdate g.reverse t f ty) t f ty = _
  exact reverseUpdate_reverseUpdate ..

/-- With a nonempty link type, `get_outgoing` is a nested dict read. -/
theorem get_outgoing_eq (ty : String) (hty : ty ≠ "") (g : LinkGraph) (c : String) :
    get_outgoing g c (some ty) = dgetD (dgetD g.forward c []) ty [] := by
  simp only [get_outgoing, strOptTruthy]
  cases h : dget g.forward c with
  | none => simp [dgetD, h, dget]
  | some inner => simp [dgetD, h, bne_iff_ne, hty]

/-- With a nonempty link type, `get_incoming` is a nested dict read under
the `_reverse`-suffixed key. -/
theorem get_incoming_eq (ty : String) (hty : ty ≠ "") (g : LinkGraph) (c : String) :
    get_incoming g c (some ty) = dgetD (dgetD g.reverse c []) (ty ++ "_reverse") [] := by
  simp only [get_incoming, strOptTruthy]
  cases h : dget g.reverse c with
  | none => simp [dgetD, h, dget]
  | some inner => simp [dgetD, h, bne_iff_ne, hty]

/-- `add_link` appends `to_id` to the forward `link_type` list of
`from_id` exactly when it was absent. -/
theorem get_outgoing_add_link_self (g : LinkGraph) (f t ty : String) (hty : ty ≠ "") :
    get_outgoing (add_link g f t ty) f (some ty) =
      (if t ∈ get_outgoing g f (some ty) then get_outgoing g f (some ty)
       else get_outgoing g f (some ty) ++ [t]) := by
  simp only [get_outgoing_eq ty hty]
  rw [add_link_forward]
  have h2 : dgetD (if dmem (forwardUpdate g.forward f t ty) t then
      forwardUpdate g.forward f t ty else dset (forwardUpdate g.forward f t ty) t []) f [] =
      dgetD (forwardUpdate g.forward f t ty) f [] := by
    simp only [dgetD, dget_ensure_of_dmem t [] (forwardUpdate_dmem_self g.forward f t ty)]
  rw [h2, forwardUpdate_read_self]

/-- `add_link` appends `from_id` to the reverse `link_type ++ "_reverse"`
list of `to_id` exactly when it was absent. -/
theorem get_incoming_add_link_self (g : LinkGraph) (f t ty : String) (hty : ty ≠ "") :
    get_incoming (add_link g f t ty) t (some ty) =
      (if f ∈ get_incoming g t (some ty) then get_incoming g t (some ty)
       else get_incoming g t (some ty) ++ [f]) := by
  simp only [get_incoming_eq ty hty]
  rw [add_link_reverse, reverseUpdate_read_self]

/-- Frame property: `add_link` leaves `get_outgoing` unchanged at every
node other than `from_id`. -/
theorem get_outgoing_add_link_ne (g : LinkGraph) (f t ty x : String)
    (lt : Option String) (hx : x ≠ f) :
    get_outgoing (add_link g f t ty) x lt = get_outgoing g x lt := by
  have hX : dget (forwardUpdate g.forward f t ty) x = dget g.forward x :=
    forwardUpdate_dget_ne _ _ _ _ _ hx
  by_cases hm : dmem (forwardUpdate g.forward f t ty) t
  · simp only [get_outgoing, add_link_forward, hm, if_true, hX]
  · simp only [Bool.not_eq_true] at hm
    by_cases hxt : x = t
    · subst hxt
      have hnone : dget g.forward x = none := by
        rw [← hX]
        exact dget_none_of_dmem_false hm
      simp only [get_outgoing, add_link_forward, hm, if_false, Bool.false_eq_true,
        dget_dset_self, hnone]
      cases lt' : strOptTruthy lt
      · simp [pydedup]
      · simp [dgetD, dget]
    · simp only [get_outgoing, add_link_forward, hm, if_false, Bool.false_eq_true,
        dget_dset_ne _ _ _ _ hxt, hX]

/-- Frame property: `add_link` leaves `get_incoming` unchanged at every
node other than `to_id`. -/
theorem get_incoming_add_link_ne (g : LinkGraph) (f t ty x : String)
    (lt : Option String) (hx : x ≠ t) :
    get_incoming (add_link g f t ty) x lt = get_incoming g x lt := by
  simp only [get_incoming, add_link_reverse, reverseUpdate_dget_ne _ _ _ _ _ hx]

/-- `add_link` is idempotent on the whole graph state. -/
theorem add_link_idem (g : LinkGraph) (f t ty : String) :
    add_link (add_link g f t ty) f t ty = add_link g f t ty := by
  obtain ⟨inner, l, hXf, hity, htl⟩ := forwardUpdate_establish g.forward f t ty
  have hMem : dmem (forwardUpdate g.forward f t ty) f = true := dmem_of_dget hXf
  have hE1f : dget (add_link g f t ty).forward f = some inner := by
    rw [add_link_forward, dget_ensure_of_dmem t [] hMem]
    exact hXf
  have hfix : forwardUpdate (add_link g f t ty).forward f t ty = (add_link g f t ty).forward :=
    forwardUpdate_fixed hE1f hity htl
  have hmemT : dmem (add_link g f t ty).forward t = true := by
    rw [add_link_forward]
    exact dmem_ensure_self _ _ _
  apply LinkGraph.ext_mk
  · rw [add_link_forward (add_link g f t ty) f t ty, hfix, if_pos hmemT]
  · rw [add_link_reverse (add_link g f t ty) f t ty, add_link_reverse g f t ty,
      reverseUpdate_reverseUpdate]

/-- C2.  `add_link` is idempotent: calling it twice with identical
arguments leaves the graph in the same state as calling it once; in
particular all `get_outgoing`/`get_incoming` queries agree after the
second call, and the repeated call introduces no duplicate entry (for a
link absent from the initial graph the queried lists hold the new id
exactly once). -/
theorem C2_add_link_idempotent (g : LinkGraph) (f t ty : String) :
    add_link (add_link g f t ty) f t ty = add_link g f t ty ∧
    (∀ (c : String) (lt : Option String),
      get_outgoing (add_link (add_link g f t ty) f t ty) c lt =
        get_outgoing (add_link g f t ty) c lt ∧
      get_incoming (add_link (add_link g f t ty) f t ty) c lt =
        get_incoming (add_link g f t ty) c lt) ∧
    (ty ≠ "" → t ∉ get_outgoing g f (some ty) →
      List.count t (get_outgoing (add_link (add_link g f t ty) f t ty) f (some ty)) = 1) ∧
    (ty ≠ "" → f ∉ get_incoming g t (some ty) →
      List.count f (get_incoming (add_link (add_link g f t ty) f t ty) t (some ty)) = 1) := by
  refine ⟨add_link_idem g f t ty, ?_, ?_, ?_⟩
  · intro c lt
    rw [add_link_idem g f t ty]
    exact ⟨rfl, rfl⟩
  · intro hty hmem
    rw [add_link_idem g f t ty, get_outgoing_add_link_self g f t ty hty, if_neg hmem,
      List.count_append, List.count_eq_zero.mpr hmem]
    simp
  · intro hty hmem
    rw [add_link_idem g f t ty, get_incoming_add_link_self g f t ty hty, if_neg hmem,
      List.count_append, List.count_eq_zero.mpr hmem]
    simp

theorem C2_add_link_idempotent_witness :
    List.count "b" (get_outgoing (add_link (add_link ⟨[], []⟩ "a" "b" "follows")
      "a" "b" "follows") "a" (some "follows")) = 1 ∧
    List.count "a" (get_incoming (add_link (add_link ⟨[], []⟩ "a" "b" "follows")
      "a" "b" "follows") "b" (some "follows")) = 1 :=
  ⟨(C2_add_link_idempotent ⟨[], []⟩ "a" "b" "follows").2.2.1 (by decide) (by decide),
   (C2_add_link_idempotent ⟨[], []⟩ "a" "b" "follows").2.2.2 (by decide) (by decide)⟩

/-- C3.  A single `add_link(from, to, type)` call with `from ≠ to` writes
exactly one forward entry under `from` (the old `type` list with `to`
appended when absent, so `to` appears in `get_outgoing(from, type)`) and
exactly one reverse entry under `to` (so `from` appears in
`get_incoming(to, type)`), and it does not create the semantic opposite
edge: `get_outgoing(to, type)` and `get_incoming(from, type)` are
unchanged.  (The nonempty-type hypothesis reflects that Python's
`if link_type:` treats the empty string as "no filter".) -/
theorem C3_add_link_single_write (g : LinkGraph) (f t ty : String)
    (hft : f ≠ t) (hty : ty ≠ "") :
    (get_outgoing (add_link g f t ty) f (some ty) =
      (if t ∈ get_outgoing g f (some ty) then get_outgoing g f (some ty)
       else get_outgoing g f (some ty) ++ [t])) ∧
    t ∈ get_outgoing (add_link g f t ty) f (some ty) ∧
    (get_incoming (add_link g f t ty) t (some ty) =
      (if f ∈ get_incoming g t (some ty) then get_incoming g t (some ty)
       else get_incoming g t (some ty) ++ [f])) ∧
    f ∈ get_incoming (add_link g f t ty) t (some ty) ∧
    get_outgoing (add_link g f t ty) t (some ty) = get_outgoing g t (some ty) ∧
    get_incoming (add_link g f t ty) f (some ty) = get_incoming g f (some ty) := by
  refine ⟨get_outgoing_add_link_self g f t ty hty, ?_,
    get_incoming_add_link_self g f t ty hty, ?_,
    get_outgoing_add_link_ne g f t ty t (some ty) (Ne.symm hft),
    get_incoming_add_link_ne g f t ty f (some ty) hft⟩
  · rw [get_outgoing_add_link_self g f t ty hty]
    exact mem_append_if _ _
  · rw [get_incoming_add_link_self g f t ty hty]
    exact mem_append_if _ _

theorem C3_add_link_single_write_witness :
    "b" ∈ get_outgoing (add_link ⟨[], []⟩ "a" "b" "context_of") "a" (some "context_of") ∧
    "a" ∈ get_incoming (add_link ⟨[], []⟩ "a" "b" "context_of") "b" (some "context_of") ∧
    get_outgoing (add_link ⟨[], []⟩ "a" "b" "context_of") "b" (some "context_of") = [] :=
  ⟨(C3_add_link_single_write ⟨[], []⟩ "a" "b" "context_of" (by decide) (by decide)).2.1,
   (C3_add_link_single_write ⟨[], []⟩ "a" "b" "context_of" (by decide) (by decide)).2.2.2.1,
   (C3_add_link_single_write ⟨[], []⟩ "a" "b" "context_of" (by decide) (by decide)).2.2.2.2.1⟩

/-! ## BFS traversal (`LinkGraph.traverse`, lines 174-217)

The `while queue` loop is modelled by well-founded recursion: every
iteration either shortens the queue or marks a previously unvisited node
(taken from the forward map) as visited, and the forward map is finite. -/

/-- All ids occurring in the forward map (keys and stored targets): the
universe a traversal can ever visit.  Used only for termination. -/
def nodeListF (l : List (String × List (String × List String))) : List String :=
  l.foldr (fun p acc => p.1 :: ((p.2.map Prod.snd).flatten ++ acc)) []

theorem dget_mem {K V : Type} [DecidableEq K] {m : List (K × V)} {k : K} {v : V}
    (h : dget m k = some v) : (k, v) ∈ m := by
  induction m with
  | nil => simp [dget] at h
  | cons p rest ih =>
      obtain ⟨k', w⟩ := p
      by_cases h0 : k' = k
      · subst h0
        simp [dget] at h
        simp [h]
      · simp [dget, h0] at h
        exact List.mem_cons_of_mem _ (ih h)

theorem mem_nodeListF_of_entry {l : List (String × List (String × List String))}
    {c : String} {inner : List (String × List String)} (hc : (c, inner) ∈ l)
    {x : String} (hx : x ∈ (inner.map Prod.snd).flatten) : x ∈ nodeListF l := by
  induction l with
  | nil => simp at hc
  | cons p rest ih =>
      rcases List.mem_cons.mp hc with rfl | hc'
      · simp only [nodeListF, List.foldr_cons]
        exact List.mem_cons_of_mem _ (List.mem_append_left _ hx)
      · have := ih hc'
        simp only [nodeListF, List.foldr_cons]
        exact List.mem_cons_of_mem _ (List.mem_append_right _ this)

theorem get_outgoing_none_subset {g : LinkGraph} {c x : String}
    (hx : x ∈ get_outgoing g c none) : x ∈ nodeListF g.forward := by
  unfold get_outgoing at hx
  cases h : dget g.forward c with
  | none => rw [h] at hx; simp at hx
  | some inner =>
      rw [h] at hx
      simp only [strOptTruthy, Bool.false_eq_true, if_false] at hx
      exact mem_nodeListF_of_entry (dget_mem h) ((mem_pydedup _ _).mp hx)

theorem countP_le_countP {α : Type} (l : List α) (p q : α → Bool)
    (h : ∀ a ∈ l, p a = true → q a = true) : l.countP p ≤ l.countP q := by
  induction l with
  | nil => simp
  | cons a rest ih =>
      rw [List.countP_cons, List.countP_cons]
      have hr := ih (fun b hb => h b (List.mem_cons_of_mem _ hb))
      by_cases hp : p a = true
      · have hq := h a (List.mem_cons_self a rest) hp
        simp only [hp, hq, if_true]
        omega
      · simp only [Bool.not_eq_true] at hp
        simp only [hp, Bool.false_eq_true, if_false]
        by_cases hq : q a = true
        · simp only [hq, if_true]
          omega
        · simp only [Bool.not_eq_true] at hq
          simp only [hq, Bool.false_eq_true, if_false]
          omega

theorem countP_lt_countP {α : Type} {l : List α} {p q : α → Bool}
    (h : ∀ a ∈ l, p a = true → q a = true) {x : α} (hx : x ∈ l)
    (hqx : q x = true) (hpx : p x = false) : l.countP p < l.countP q := by
  induction l with
  | nil => simp at hx
  | cons a rest ih =>
      rw [List.countP_cons, List.countP_cons]
      rcases List.mem_cons.mp hx with rfl | hx'
      · simp only [hpx, Bool.false_eq_true, if_false, hqx, if_true]
        have := countP_le_countP rest p q (fun b hb => h b (List.mem_cons_of_mem _ hb))
        omega
      · have hrec := ih (fun b hb => h b (List.mem_cons_of_mem _ hb)) hx'
        by_cases hp : p a = true
        · have hq := h a (List.mem_cons_self a rest) hp
          simp only [hp, hq, if_true]
          omega
        · simp only [Bool.not_eq_true] at hp
          simp only [hp, Bool.false_eq_true, if_false]
          by_cases hq : q a = true
          · simp only [hq, if_true]
            omega
          · simp only [Bool.not_eq_true] at hq
            simp only [hq, Bool.false_eq_true, if_false]
            omega

/-- Number of graph nodes not yet visited: the primary termination
measure of the BFS loop. -/
def unvisitedCount (g : LinkGraph) (visited : List String) : Nat :=
  (nodeListF g.forward).countP (fun y => decide (y ∉ visited))

theorem unvisitedCount_lt {g : LinkGraph} {visited visited' : List String}
    (hsub : ∀ y, y ∈ visited → y ∈ visited') {x : String}
    (hxg : x ∈ nodeListF g.forward) (hxv : x ∉ visited) (hxv' : x ∈ visited') :
    unvisitedCount g visited' < unvisitedCount g visited := by
  apply countP_lt_countP (fun a _ ha => ?_) hxg (by simp [hxv]) (by simp [hxv'])
  simp only [decide_eq_true_eq] at ha ⊢
  intro hav
  exact ha (hsub a hav)

/-- The link-type filter of `traverse` (lines 202-210): with a truthy
`link_types` list, a step `current -> target` is expanded only when the
actual stored forward edge type is one of the requested types.  Python's
`if link_types:` treats `None` and the empty list as "no filter", and
the inner `if current_id in self._forward:` guard means an absent node
imposes no restriction. -/
def typeOk (g : LinkGraph) (lts : Option (List String)) (current target : String) : Bool :=
  match lts with
  | none => true
  | some l =>
      if l.isEmpty then true
      else
        match dget g.forward current with
        | none => true
        | some inner => inner.any (fun p => p.2.contains target && l.contains p.1)

/-- The `for target_id in outgoing:` body of `traverse` (lines 200-215),
threading `(visited, queue, result)`: an unvisited target passing the
type filter is marked visited, appended to the result, and enqueued one
level deeper. -/
def processTargets (g : LinkGraph) (lts : Option (List String)) (current : String)
    (depth : Nat) : List String → List String → List (String × Nat) → List String →
    List String × List (String × Nat) × List String
  | [], visited, queue, result => (visited, queue, result)
  | tgt :: rest, visited, queue, result =>
      if typeOk g lts current tgt then
        if tgt ∈ visited then processTargets g lts current depth rest visited queue result
        else processTargets g lts current depth rest (tgt :: visited)
          (queue ++ [(tgt, depth + 1)]) (result ++ [tgt])
      else processTargets g lts current depth rest visited queue result

/-- Complete characterisation of one expansion step: some sublist `new`
of fresh, filter-passing targets is prepended to `visited`, enqueued at
`depth + 1`, and appended to the result. -/
theorem processTargets_char (g : LinkGraph) (lts : Option (List String)) (current : String)
    (depth : Nat) :
    ∀ (targets visited : List String) (queue : List (String × Nat)) (result : List String),
      ∃ new : List String,
        processTargets g lts current depth targets visited queue result =
          (new.reverse ++ visited, queue ++ new.map (fun x => (x, depth + 1)), result ++ new) ∧
        new.Nodup ∧ (∀ x ∈ new, x ∉ visited ∧ x ∈ targets) := by
  intro targets
  induction targets with
  | nil =>
      intro visited queue result
      exact ⟨[], by simp [processTargets], by simp, by simp⟩
  | cons tgt rest ih =>
      intro visited queue result
      by_cases hok : typeOk g lts current tgt
      · by_cases hv : tgt ∈ visited
        · obtain ⟨new, heq, hnd, hprop⟩ := ih visited queue result
          refine ⟨new, ?_, hnd, ?_⟩
          · simp only [processTargets, hok, if_true, hv]
            exact heq
          · intro x hx
            exact ⟨(hprop x hx).1, List.mem_cons_of_mem _ (hprop x hx).2⟩
        · obtain ⟨new, heq, hnd, hprop⟩ :=
            ih (tgt :: visited) (queue ++ [(tgt, depth + 1)]) (result ++ [tgt])
          refine ⟨tgt :: new, ?_, ?_, ?_⟩
          · simp only [processTargets, hok, if_true, hv, if_false]
            rw [heq]
            simp
          · refine List.Nodup.cons ?_ hnd
            intro hmem
            exact ((hprop tgt hmem).1 (List.mem_cons_self _ _)).elim
          · intro x hx
            rcases List.mem_cons.mp hx with rfl | hx'
            · exact ⟨hv, List.mem_cons_self _ _⟩
            · refine ⟨fun hxv => (hprop x hx').1 (List.mem_cons_of_mem _ hxv), ?_⟩
              exact List.mem_cons_of_mem _ (hprop x hx').2
      · obtain ⟨new, heq, hnd, hprop⟩ := ih visited queue result
        refine ⟨new, ?_, hnd, ?_⟩
        · simp only [processTargets, hok, if_false]
          exact heq
        · intro x hx
          exact ⟨(hprop x hx).1, List.mem_cons_of_mem _ (hprop x hx).2⟩

/-- The `while queue:` loop of `traverse` (lines 191-215): pop `(current,
depth)`; if `depth >= max_depth` continue, otherwise expand `current`'s
outgoing links via `processTargets`. -/
def traverseLoop (g : LinkGraph) (lts : Option (List String)) (maxDepth : Nat) :
    List (String × Nat) → List String → List String → List String
  | [], _, result => result
  | (current, depth) :: rest, visited, result =>
      if maxDepth ≤ depth then traverseLoop g lts maxDepth rest visited result
      else
        match hs : processTargets g lts current depth (get_outgoing g current none)
          visited rest result with
        | (visited', queue', result') => traverseLoop g lts maxDepth queue' visited' result'
  termination_by q visited _ => (unvisitedCount g visited, q.length)
  decreasing_by
  · apply Prod.Lex.right
    simp
  · obtain ⟨new, heq, hnd, hprop⟩ := processTargets_char g lts current depth
      (get_outgoing g current none) visited rest result
    rw [heq] at hs
    simp only [Prod.mk.injEq] at hs
    obtain ⟨hv, hq, hr⟩ := hs
    subst hv
    subst hq
    subst hr
    cases new with
    | nil =>
        apply Prod.Lex.right
        simp
    | cons x new' =>
        apply Prod.Lex.left
        refine unvisitedCount_lt (fun y hy => List.mem_append_right _ hy)
          (get_outgoing_none_subset (hprop x (List.mem_cons_self _ _)).2)
          (hprop x (List.mem_cons_self _ _)).1 ?_
        exact List.mem_append_left _ (List.mem_reverse.mpr (List.mem_cons_self _ _))

theorem traverseLoop_nil (g : LinkGraph) (lts : Option (List String)) (D : Nat)
    (v r : List String) : traverseLoop g lts D [] v r = r := by
  rw [traverseLoop]

theorem traverseLoop_skip (g : LinkGraph) (lts : Option (List String)) (D : Nat)
    (current : String) (depth : Nat) (rest : List (String × Nat)) (v r : List String)
    (h : D ≤ depth) :
    traverseLoop g lts D ((current, depth) :: rest) v r = traverseLoop g lts D rest v r := by
  rw [traverseLoop, if_pos h]

theorem traverseLoop_expand (g : LinkGraph) (lts : Option (List String)) (D : Nat)
    (current : String) (depth : Nat) (rest : List (String × Nat)) (v r : List String)
    (v' : List String) (q' : List (String × Nat)) (r' : List String)
    (hexp : ¬ D ≤ depth)
    (hs : processTargets g lts current depth (get_outgoing g current none) v rest r =
      (v', q', r')) :
    traverseLoop g lts D ((current, depth) :: rest) v r = traverseLoop g lts D q' v' r' := by
  rw [traverseLoop, if_neg hexp]
  split
  rename_i v'' q'' r'' heq'
  rw [hs] at heq'
  simp only [Prod.mk.injEq] at heq'
  obtain ⟨h1, h2, h3⟩ := heq'
  subst h1
  subst h2
  subst h3
  rfl

/-- `LinkGraph.traverse` (lines 174-217): BFS from `start_id`, beginning
with `visited = {start_id}` and queue `[(start_id, 0)]`, returning the
reachable ids in discovery order (excluding `start_id`). -/
def traverse (g : LinkGraph) (start_id : String) (maxDepth : Nat)
    (lts : Option (List String)) : List String :=
  traverseLoop g lts maxDepth [(start_id, 0)] [start_id] []

/-- `ReachN g n a b`: `b` is reachable from `a` in at most `n` forward
hops of the link graph (any edge type), i.e. its forward hop distance is
at most `n`. -/
inductive ReachN (g : LinkGraph) : Nat → String → String → Prop
  | refl (n a) : ReachN g n a a
  | step {n a b c} : ReachN g n a b → c ∈ get_outgoing g b none → ReachN g (n + 1) a c

theorem ReachN.succ {g : LinkGraph} {n : Nat} {a b : String}
    (h : ReachN g n a b) : ReachN g (n + 1) a b := by
  induction h with
  | refl n a => exact ReachN.refl _ _
  | step h e ih => exact ReachN.step ih e

theorem ReachN.mono {g : LinkGraph} {n m : Nat} {a b : String}
    (h : ReachN g n a b) (hnm : n ≤ m) : ReachN g m a b := by
  induction hnm with
  | refl => exact h
  | step _ ih => exact ih.succ

/-- The BFS loop only ever appends to the running result list. -/
theorem traverseLoop_extension (g : LinkGraph) (lts : Option (List String)) (D : Nat) :
    ∀ (q : List (String × Nat)) (v r : List String),
      ∃ ext, traverseLoop g lts D q v r = r ++ ext := by
  intro q v r
  induction q, v, r using traverseLoop.induct g lts D with
  | case1 v r => exact ⟨[], by simp [traverseLoop_nil]⟩
  | case2 current depth rest visited result hskip ih =>
      obtain ⟨ext, hext⟩ := ih
      exact ⟨ext, by rw [traverseLoop_skip _ _ _ _ _ _ _ _ hskip]; exact hext⟩
  | case3 current depth rest visited result hexp v' q' r' hs ih =>
      obtain ⟨new, heq, hnd, hprop⟩ := processTargets_char g lts current depth
        (get_outgoing g current none) visited rest result
      rw [heq] at hs
      simp only [Prod.mk.injEq] at hs
      obtain ⟨hv, hq, hr⟩ := hs
      obtain ⟨ext, hext⟩ := ih
      refine ⟨new ++ ext, ?_⟩
      rw [traverseLoop_expand g lts D current depth rest visited result v' q' r' hexp
        (by rw [heq, hv, hq, hr]), hext, ← hr]
      simp

/-- Main safety invariant of the BFS loop: provided every queue entry is
reachable within its recorded depth (bounded by `maxDepth`), the final
result excludes `start`, has no duplicates, and only contains nodes
reachable within `maxDepth` hops. -/
theorem traverseLoop_invariant (g : LinkGraph) (lts : Option (List String)) (D : Nat)
    (start : String) :
    ∀ (q : List (String × Nat)) (v r : List String),
      start ∈ v →
      (∀ x ∈ r, x ∈ v) →
      start ∉ r →
      r.Nodup →
      (∀ e ∈ q, ReachN g e.2 start e.1 ∧ e.2 ≤ D) →
      (∀ x ∈ r, ReachN g D start x) →
      start ∉ traverseLoop g lts D q v r ∧ (traverseLoop g lts D q v r).Nodup ∧
        ∀ x ∈ traverseLoop g lts D q v r, ReachN g D start x := by
  intro q v r
  induction q, v, r using traverseLoop.induct g lts D with
  | case1 v r =>
      intro _ _ h3 h4 _ h6
      rw [traverseLoop_nil]
      exact ⟨h3, h4, h6⟩
  | case2 current depth rest visited result hskip ih =>
      intro h1 h2 h3 h4 h5 h6
      rw [traverseLoop_skip _ _ _ _ _ _ _ _ hskip]
      exact ih h1 h2 h3 h4 (fun e he => h5 e (List.mem_cons_of_mem _ he)) h6
  | case3 current depth rest visited result hexp v' q' r' hs ih =>
      intro h1 h2 h3 h4 h5 h6
      obtain ⟨new, heq, hnd, hprop⟩ := processTargets_char g lts current depth
        (get_outgoing g current none) visited rest result
      rw [heq] at hs
      simp only [Prod.mk.injEq] at hs
      obtain ⟨hv, hq, hr⟩ := hs
      subst hv
      subst hq
      subst hr
      rw [traverseLoop_expand g lts D current depth rest visited result _ _ _ hexp heq]
      have hcur : ReachN g depth start current := (h5 _ (List.mem_cons_self _ _)).1
      have hdepth : depth < D := Nat.lt_of_not_le hexp
      apply ih
      · exact List.mem_append_right _ h1
      · intro x hx
        rcases List.mem_append.mp hx with hx' | hx'
        · exact List.mem_append_right _ (h2 x hx')
        · exact List.mem_append_left _ (List.mem_reverse.mpr hx')
      · intro hmem
        rcases List.mem_append.mp hmem with hx' | hx'
        · exact h3 hx'
        · exact (hprop start hx').1 h1
      · refine List.Nodup.append h4 hnd ?_
        intro x hx hx'
        exact (hprop x hx').1 (h2 x hx)
      · intro e he
        rcases List.mem_append.mp he with he' | he'
        · exact h5 e (List.mem_cons_of_mem _ he')
        · obtain ⟨x, hxnew, rfl⟩ := List.mem_map.mp he'
          exact ⟨ReachN.step hcur (hprop x hxnew).2, hdepth⟩
      · intro x hx
        rcases List.mem_append.mp hx with hx' | hx'
        · exact h6 x hx'
        · exact (ReachN.step hcur (hprop x hx').2).mono hdepth

/-- FIFO level invariant: queue depths are nondecreasing and span at
most two consecutive levels. -/
def queueLeveled (q : List (String × Nat)) : Prop :=
  List.Pairwise (fun a b => a.2 ≤ b.2 ∧ b.2 ≤ a.2 + 1) q

theorem traverseLoop_drain (g : LinkGraph) (lts : Option (List String)) (D : Nat) :
    ∀ (q : List (String × Nat)) (v r : List String),
      (∀ e ∈ q, D ≤ e.2) → traverseLoop g lts D q v r = r := by
  intro q
  induction q with
  | nil =>
      intro v r _
      rw [traverseLoop_nil]
  | cons e rest ih =>
      intro v r h
      obtain ⟨c, dep⟩ := e
      rw [traverseLoop_skip _ _ _ _ _ _ _ _ (h _ (List.mem_cons_self _ _))]
      exact ih v r (fun e he => h e (List.mem_cons_of_mem _ he))

theorem queueLeveled_expand {current : String} {depth : Nat}
    {rest : List (String × Nat)} {new : List String}
    (hI : queueLeveled ((current, depth) :: rest)) :
    queueLeveled (rest ++ new.map (fun x => (x, depth + 1))) := by
  unfold queueLeveled at *
  have hhead := (List.pairwise_cons.mp hI).1
  have hrest := (List.pairwise_cons.mp hI).2
  rw [List.pairwise_append]
  refine ⟨hrest, ?_, ?_⟩
  · rw [List.pairwise_map]
    clear hI hhead hrest
    induction new with
    | nil => simp
    | cons a l ih =>
        rw [List.pairwise_cons]
        exact ⟨fun b _ => ⟨le_refl _, Nat.le_succ _⟩, ih⟩
  · intro a ha b hb
    obtain ⟨x, -, rfl⟩ := List.mem_map.mp hb
    have := hhead a ha
    exact ⟨by omega, by omega⟩

/-- Raising `max_depth` by one only appends nodes to the BFS result. -/
theorem traverseLoop_mono_depth (g : LinkGraph) (lts : Option (List String)) (D : Nat) :
    ∀ (q : List (String × Nat)) (v r : List String), queueLeveled q →
      ∃ ext, traverseLoop g lts (D + 1) q v r = traverseLoop g lts D q v r ++ ext := by
  intro q v r
  induction q, v, r using traverseLoop.induct g lts (D + 1) with
  | case1 v r => exact fun _ => ⟨[], by rw [traverseLoop_nil, traverseLoop_nil, List.append_nil]⟩
  | case2 current depth rest visited result hskip ih =>
      intro hI
      obtain ⟨ext, hext⟩ := ih ((List.pairwise_cons.mp hI).2)
      refine ⟨ext, ?_⟩
      rw [traverseLoop_skip _ _ _ _ _ _ _ _ hskip,
        traverseLoop_skip _ _ _ _ _ _ _ _ (le_trans (Nat.le_succ D) hskip), hext]
  | case3 current depth rest visited result hexp v' q' r' hs ih =>
      intro hI
      obtain ⟨new, heq, hnd, hprop⟩ := processTargets_char g lts current depth
        (get_outgoing g current none) visited rest result
      rw [heq] at hs
      simp only [Prod.mk.injEq] at hs
      obtain ⟨hv, hq, hr⟩ := hs
      subst hv
      subst hq
      subst hr
      by_cases hD : depth < D
      · obtain ⟨ext, hext⟩ := ih (queueLeveled_expand hI)
        refine ⟨ext, ?_⟩
        rw [traverseLoop_expand g lts (D + 1) current depth rest visited result _ _ _ hexp heq,
          traverseLoop_expand g lts D current depth rest visited result _ _ _
            (Nat.not_le.mpr hD) heq, hext]
      · have hdD : depth = D := by omega
        have hrest : ∀ e ∈ rest, D ≤ e.2 := by
          intro e he
          have := (List.pairwise_cons.mp hI).1 e he
          omega
        have hDrun : traverseLoop g lts D ((current, depth) :: rest) visited result = result := by
          rw [traverseLoop_skip _ _ _ _ _ _ _ _ (le_of_eq hdD.symm)]
          exact traverseLoop_drain g lts D rest visited result hrest
        obtain ⟨ext2, hext2⟩ := traverseLoop_extension g lts (D + 1)
          (rest ++ new.map (fun x => (x, depth + 1))) (new.reverse ++ visited) (result ++ new)
        refine ⟨new ++ ext2, ?_⟩
        rw [traverseLoop_expand g lts (D + 1) current depth rest visited result _ _ _ hexp heq,
          hext2, hDrun]
        simp

/-- C4.  `traverse(start, max_depth = d)` (no type filter) excludes
`start`, contains each node at most once, returns only nodes whose
forward hop distance from `start` is at most `d`, and its result set
grows monotonically when `d` is raised by one (in fact the `d`-run
result is a prefix of the `d+1`-run result). -/
theorem C4_traverse_depth_bound_monotone (g : LinkGraph) (start : String) (d : Nat) :
    start ∉ traverse g start d none ∧
    (traverse g start d none).Nodup ∧
    (∀ x ∈ traverse g start d none, ReachN g d start x) ∧
    (∀ x ∈ traverse g start d none, x ∈ traverse g start (d + 1) none) := by
  have hinv := traverseLoop_invariant g none d start [(start, 0)] [start] []
    (List.mem_cons_self _ _) (by simp) (by simp) (by simp)
    (by
      intro e he
      simp only [List.mem_singleton] at he
      subst he
      exact ⟨ReachN.refl _ _, Nat.zero_le _⟩)
    (by simp)
  obtain ⟨ext, hext⟩ := traverseLoop_mono_depth g none d [(start, 0)] [start] []
    (List.pairwise_singleton _ _)
  refine ⟨hinv.1, hinv.2.1, hinv.2.2, ?_⟩
  intro x hx
  unfold traverse at hx ⊢
  rw [hext]
  exact List.mem_append_left _ hx

theorem C4_traverse_depth_bound_monotone_witness :
    "b" ∈ traverse ⟨[("a", [("t", ["b"])]), ("b", [("t", ["c"])])], []⟩ "a" 2 none :=
  (C4_traverse_depth_bound_monotone ⟨[("a", [("t", ["b"])]), ("b", [("t", ["c"])])], []⟩
    "a" 1).2.2.2 "b"
    (by simp [traverse, traverseLoop, processTargets, get_outgoing, dget, typeOk,
      pydedup, strOptTruthy])

/-! ## Chunks (`memory_store.py` is not part of the sources; data shapes
follow spec §3, which the `auto_linker.py` / `recall_operation.py` code
in the sources reads field-by-field exactly as modelled here)

Timestamps are modelled as rational seconds since the epoch (the source
stores ISO strings and converts to `datetime`; the parse-failure
fallbacks at `auto_linker.py` lines 293-297 and 471-472 are outside the
model, which assumes well-formed timestamps).  Python floats are
rationals, see the file header. -/

/-- Modelled from the spec: per-chunk link lists (spec §3 `links`), one
append-only list per edge type, as read and written by the
Auto-Linker. -/
structure ChunkLinks where
  context_of : List String
  follows : List String
  related_to : List String
  supports : List String
  contradicts : List String
  deriving DecidableEq

/-- Modelled from the spec: chunk metadata (spec §3 `metadata`). -/
structure ChunkMetadata where
  created : ℚ
  conversation_id : String
  confidence : ℚ
  deriving DecidableEq

/-- Modelled from the spec: the atomic memory unit (spec §3 `Chunk`),
restricted to the fields the embedded operations read. -/
structure Chunk where
  id : String
  content : String
  tags : List String
  metadata : ChunkMetadata
  links : ChunkLinks
  deriving DecidableEq

/-- Number of shared tags: `len(set(source.tags) & set(target.tags))`
(`auto_linker.py` line 476). -/
def sharedTagCount (source target : Chunk) : Nat :=
  ((pydedup source.tags).filter (fun tg => decide (tg ∈ target.tags))).length

/-- `calculate_link_strength` (`auto_linker.py` lines 443-485), on
chunks with well-formed creation timestamps. -/
def calculate_link_strength (source target : Chunk) (link_type : String) : ℚ :=
  if link_type = "context_of" then 1
  else if link_type = "follows" then
    let time_diff := source.metadata.created - target.metadata.created
    let minutes := |time_diff| / 60
    max (3/10) (1 - minutes / 5)
  else if link_type = "related_to" then
    let shared := sharedTagCount source target
    min (9/10) (3/10 + (shared : ℚ) * (2/10))
  else if link_type = "supports" then 8/10
  else if link_type = "contradicts" then 8/10
  else 1/2

/-- C6.  `calculate_link_strength` returns exactly 1.0 for `context_of`;
exactly `max(0.3, 1.0 - elapsed_minutes/5)` for `follows`, where
`elapsed_minutes` is the absolute creation-time difference in minutes
(hence exactly 0.3 from five minutes on); exactly
`min(0.9, 0.3 + 0.2*k)` for `related_to` with `k` shared tags (0.7 at
`k = 2`, capped at 0.9 from `k = 3` on); and exactly 0.8 for `supports`
and `contradicts`. -/
theorem C6_calculate_link_strength_values (s t : Chunk) :
    calculate_link_strength s t "context_of" = 1 ∧
    calculate_link_strength s t "follows" =
      max (3/10) (1 - (|s.metadata.created - t.metadata.created| / 60) / 5) ∧
    (300 ≤ |s.metadata.created - t.metadata.created| →
      calculate_link_strength s t "follows" = 3/10) ∧
    calculate_link_strength s t "related_to" =
      min (9/10) (3/10 + (sharedTagCount s t : ℚ) * (2/10)) ∧
    (sharedTagCount s t = 2 → calculate_link_strength s t "related_to" = 7/10) ∧
    (3 ≤ sharedTagCount s t → calculate_link_strength s t "related_to" = 9/10) ∧
    calculate_link_strength s t "supports" = 8/10 ∧
    calculate_link_strength s t "contradicts" = 8/10 := by
  refine ⟨by simp [calculate_link_strength], rfl, ?_, rfl, ?_, ?_,
    by simp [calculate_link_strength], by simp [calculate_link_strength]⟩
  · intro h
    have h5 : (5 : ℚ) ≤ |s.metadata.created - t.metadata.created| / 60 := by linarith
    simp only [calculate_link_strength, String.reduceEq, if_false, if_true, reduceIte]
    rw [max_eq_left]
    linarith
  · intro h
    simp only [calculate_link_strength, String.reduceEq, if_false, if_true, reduceIte, h]
    norm_num
  · intro h
    have : (3 : ℚ) ≤ (sharedTagCount s t : ℚ) := by exact_mod_cast h
    simp only [calculate_link_strength, String.reduceEq, if_false, if_true, reduceIte]
    rw [min_eq_left]
    linarith

theorem C6_calculate_link_strength_values_witness :
    calculate_link_strength
      ⟨"c1", "", [], ⟨600, "cv", 1⟩, ⟨[], [], [], [], []⟩⟩
      ⟨"c2", "", [], ⟨0, "cv", 1⟩, ⟨[], [], [], [], []⟩⟩ "follows" = 3/10 ∧
    calculate_link_strength
      ⟨"c3", "", ["x", "y", "z"], ⟨0, "cv", 1⟩, ⟨[], [], [], [], []⟩⟩
      ⟨"c4", "", ["x", "y"], ⟨0, "cv", 1⟩, ⟨[], [], [], [], []⟩⟩ "related_to" = 7/10 ∧
    calculate_link_strength
      ⟨"c5", "", ["x", "y", "z"], ⟨0, "cv", 1⟩, ⟨[], [], [], [], []⟩⟩
      ⟨"c6", "", ["x", "y", "z"], ⟨0, "cv", 1⟩, ⟨[], [], [], [], []⟩⟩ "related_to" = 9/10 :=
  ⟨(C6_calculate_link_strength_values _ _).2.2.1 (by norm_num),
   (C6_calculate_link_strength_values _ _).2.2.2.2.1 (by decide),
   (C6_calculate_link_strength_values _ _).2.2.2.2.2.1 (by decide)⟩

/-! ## Sandboxed session (`repl_environment.py`, class `REPLSession`)

The session's control state (lines 143-160) is embedded directly; an
agent-submitted code fragment is modelled as the sequence of its
session-relevant top-level effects (`FINAL(...)` calls, top-level
bindings of user names, `llm_query(...)` calls), which is what CPython's
`exec` performs statement by statement.  Exceptions are modelled as
`Option SessionError` results: a raised error aborts the rest of the
fragment, but session-attribute mutations already performed stand, just
as with CPython attribute mutation.  The static sandbox check (lines
300-303), stdout/stderr capture, the wall-clock timeout and the
`chunk_store`/`llm_client` presence checks are outside this model. -/

inductive SessionError where
  /-- `MaxIterationsError` (lines 217-220). -/
  | maxIterations
  /-- `RuntimeError("FINAL() can only be called once per session")` (line 242). -/
  | doubleFinal
  /-- `RuntimeError("REPL already complete")` (line 295). -/
  | alreadyComplete
  deriving DecidableEq

/-- A provider response; `cost_usd = none` models a response object
without a `cost_usd` attribute (line 232's `hasattr` check). -/
structure LLMResponse (α : Type) where
  text : α
  cost_usd : Option ℚ

/-- The mutable session attributes of `REPLSession` (lines 143-160):
`names` is the user-visible part of `_namespace`, `state` the `_state`
mirror refreshed after each successful `execute` (lines 342-345). -/
structure REPLSession (α : Type) where
  max_iterations : Nat
  iteration_count : Nat
  total_cost : ℚ
  result : Option α
  complete : Bool
  names : List (String × α)
  state : List (String × α)
  deriving DecidableEq

/-- `REPLSession.__init__` (lines 126-160): fresh Active session.  Note
the constructor takes no cost-budget parameter of any kind. -/
def REPLSession.init (α : Type) (max_iterations : Nat) : REPLSession α :=
  ⟨max_iterations, 0, 0, none, false, [], []⟩

/-- `_final_wrapper` (lines 239-244): raises on a second call, otherwise
records the answer and marks the session complete. -/
def final_wrapper {α : Type} (s : REPLSession α) (answer : α) :
    REPLSession α × Option SessionError :=
  if s.complete then (s, some .doubleFinal)
  else ({s with complete := true, result := some answer}, none)

/-- `_llm_query_wrapper` (lines 213-237): increments `_iteration_count`,
raises `MaxIterationsError` past the configured maximum, otherwise calls
the client and adds the response's reported cost (when present) to
`_total_cost`.  The prompt/context formatting of lines 222-226 is pure
string assembly folded into the prompt argument.  There is no budget
parameter and no cost check anywhere in this function. -/
def llm_query_wrapper {α : Type} (client : String → LLMResponse α) (s : REPLSession α)
    (prompt : String) : REPLSession α × Option α × Option SessionError :=
  let s := {s with iteration_count := s.iteration_count + 1}
  if s.max_iterations < s.iteration_count then (s, none, some .maxIterations)
  else
    let resp := client prompt
    match resp.cost_usd with
    | some c => ({s with total_cost := s.total_cost + c}, some resp.text, none)
    | none => (s, some resp.text, none)

/-- Session-relevant top-level effects of a submitted code fragment. -/
inductive Stmt (α : Type) where
  | callFinal (answer : α)
  | assign (name : String) (value : α)
  | callLlm (prompt : String)

def run_stmt {α : Type} (client : String → LLMResponse α) (s : REPLSession α) :
    Stmt α → REPLSession α × Option SessionError
  | .callFinal a => final_wrapper s a
  | .assign n v => ({s with names := dset s.names n v}, none)
  | .callLlm p =>
      let r := llm_query_wrapper client s p
      (r.1, r.2.2)

def run_stmts {α : Type} (client : String → LLMResponse α) :
    REPLSession α → List (Stmt α) → REPLSession α × Option SessionError
  | s, [] => (s, none)
  | s, st :: rest =>
      match run_stmt client s st with
      | (s', none) => run_stmts client s' rest
      | (s', some e) => (s', some e)

/-- `execute` (lines 279-364) over the fragment model: rejected outright
with `RuntimeError` once the session is Completed (lines 294-295);
otherwise the statements run in order — an exception aborts the rest of
the fragment while session-attribute mutations stand — and on success
the user-level names are persisted into `_state` (lines 342-345). -/
def execute {α : Type} (client : String → LLMResponse α) (s : REPLSession α)
    (code : List (Stmt α)) : REPLSession α × Option SessionError :=
  if s.complete then (s, some .alreadyComplete)
  else
    match run_stmts client s code with
    | (s', none) => ({s' with state := s'.names}, none)
    | (s', some e) => (s', some e)

/-- `retrieve` (lines 366-368): the recorded result only once complete. -/
def retrieve {α : Type} (s : REPLSession α) : Option α :=
  if s.complete then s.result else none

/-- `reset` (lines 370-379). -/
def reset {α : Type} (s : REPLSession α) : REPLSession α :=
  ⟨s.max_iterations, 0, 0, none, false, [], []⟩

/-- C7.  In a session lifetime `FINAL` succeeds exactly once: on an
Active session the first call records the answer and completes the
session, a second call raises (leaving the session unchanged),
`retrieve()` is `none` before any `FINAL` and the recorded answer after,
and any `execute` on the completed session fails with an error. -/
theorem C7_final_succeeds_exactly_once {α : Type} (client : String → LLMResponse α)
    (s : REPLSession α) (a b : α) (code : List (Stmt α)) (h : s.complete = false) :
    retrieve s = none ∧
    (final_wrapper s a).2 = none ∧
    (final_wrapper s a).1.complete = true ∧
    (final_wrapper s a).1.result = some a ∧
    retrieve (final_wrapper s a).1 = some a ∧
    (final_wrapper (final_wrapper s a).1 b).2 = some .doubleFinal ∧
    (final_wrapper (final_wrapper s a).1 b).1 = (final_wrapper s a).1 ∧
    (execute client (final_wrapper s a).1 code).2 = some .alreadyComplete := by
  simp [retrieve, final_wrapper, execute, h]

theorem C7_final_succeeds_exactly_once_witness :
    retrieve (REPLSession.init String 10) = none ∧
    retrieve (final_wrapper (REPLSession.init String 10) "ans").1 = some "ans" ∧
    (execute (fun _ => ⟨"r", none⟩) (final_wrapper (REPLSession.init String 10) "ans").1
      []).2 = some SessionError.alreadyComplete :=
  ⟨(C7_final_succeeds_exactly_once (fun _ => ⟨"r", none⟩) (REPLSession.init String 10)
      "ans" "b" [] rfl).1,
   (C7_final_succeeds_exactly_once (fun _ => ⟨"r", none⟩) (REPLSession.init String 10)
      "ans" "b" [] rfl).2.2.2.2.1,
   (C7_final_succeeds_exactly_once (fun _ => ⟨"r", none⟩) (REPLSession.init String 10)
      "ans" "b" [] rfl).2.2.2.2.2.2.2⟩

/-- C9.  Within one `execute` call on an Active session, the first
`FINAL(answer)` records the answer and completes the session but does
not abort the fragment: statements after it still run (a top-level
binding is persisted into session state and a later `llm_query` call
still increments the iteration counter); only subsequent `execute`
calls are rejected. -/
theorem C9_final_does_not_abort_fragment {α : Type} (client : String → LLMResponse α)
    (s : REPLSession α) (a : α) (n : String) (v : α) (p : String)
    (h : s.complete = false) (hit : s.iteration_count + 1 ≤ s.max_iterations) :
    (execute client s [.callFinal a, .assign n v, .callLlm p]).2 = none ∧
    (execute client s [.callFinal a, .assign n v, .callLlm p]).1.complete = true ∧
    (execute client s [.callFinal a, .assign n v, .callLlm p]).1.result = some a ∧
    dget (execute client s [.callFinal a, .assign n v, .callLlm p]).1.state n = some v ∧
    (execute client s [.callFinal a, .assign n v, .callLlm p]).1.iteration_count =
      s.iteration_count + 1 ∧
    (∀ code', (execute client (execute client s [.callFinal a, .assign n v, .callLlm p]).1
      code').2 = some .alreadyComplete) := by
  have hnot : ¬ s.max_iterations < s.iteration_count + 1 := Nat.not_lt.mpr hit
  cases hc : (client p).cost_usd with
  | none =>
      simp [execute, run_stmts, run_stmt, final_wrapper, llm_query_wrapper, h, hnot, hc,
        dget_dset_self]
  | some c =>
      simp [execute, run_stmts, run_stmt, final_wrapper, llm_query_wrapper, h, hnot, hc,
        dget_dset_self]

theorem C9_final_does_not_abort_fragment_witness :
    (execute (fun _ => ⟨"r", some (5/1000)⟩) (REPLSession.init String 10)
      [.callFinal "ans", .assign "x" "val", .callLlm "q"]).2 = none ∧
    dget (execute (fun _ => ⟨"r", some (5/1000)⟩) (REPLSession.init String 10)
      [.callFinal "ans", .assign "x" "val", .callLlm "q"]).1.state "x" = some "val" ∧
    (execute (fun _ => ⟨"r", some (5/1000)⟩) (REPLSession.init String 10)
      [.callFinal "ans", .assign "x" "val", .callLlm "q"]).1.iteration_count = 1 :=
  ⟨(C9_final_does_not_abort_fragment (fun _ => ⟨"r", some (5/1000)⟩)
      (REPLSession.init String 10) "ans" "x" "val" "q" rfl (by decide)).1,
   (C9_final_does_not_abort_fragment (fun _ => ⟨"r", some (5/1000)⟩)
      (REPLSession.init String 10) "ans" "x" "val" "q" rfl (by decide)).2.2.2.1,
   (C9_final_does_not_abort_fragment (fun _ => ⟨"r", some (5/1000)⟩)
      (REPLSession.init String 10) "ans" "x" "val" "q" rfl (by decide)).2.2.2.2.1⟩

/-- C1 (failing-input evaluation).  `REPLSession` has no `max_cost_usd`
parameter and `_llm_query_wrapper` performs no cost check: with a client
whose calls each cost 0.005 USD and an intended budget of `X = 0.004`,
the first call succeeds and drives `total_cost` to 0.005 > X, and the
next call on the over-budget session still succeeds — no budget error is
ever raised, contradicting the spec (and the expectations of
`test_phase2_fixes.py`, which cannot even import the
`CostBudgetExceededError` it tests for). -/
theorem C1_no_budget_enforcement :
    (llm_query_wrapper (fun _ => ⟨"resp", some (5/1000)⟩) (REPLSession.init String 10)
      "Test").2.2 = none ∧
    (llm_query_wrapper (fun _ => ⟨"resp", some (5/1000)⟩) (REPLSession.init String 10)
      "Test").1.total_cost = 5/1000 ∧
    (4/1000 : ℚ) < 5/1000 ∧
    (llm_query_wrapper (fun _ => ⟨"resp", some (5/1000)⟩)
      (llm_query_wrapper (fun _ => ⟨"resp", some (5/1000)⟩) (REPLSession.init String 10)
        "Test").1 "Test 2").2.2 = none ∧
    (llm_query_wrapper (fun _ => ⟨"resp", some (5/1000)⟩)
      (llm_query_wrapper (fun _ => ⟨"resp", some (5/1000)⟩) (REPLSession.init String 10)
        "Test").1 "Test 2").1.total_cost = 10/1000 := by
  refine ⟨rfl, by norm_num [llm_query_wrapper, REPLSession.init], by norm_num, rfl, ?_⟩
  norm_num [llm_query_wrapper, REPLSession.init]

/-! ## Disk cache (`cache_system.py`, class `DiskCache`)

The cache directory is modelled as a dict from file name to the JSON
entry `{value, timestamp, ttl}`; `time.time()` is an explicit `now`
argument.  JSON (de)serialisation failures (treated as misses by the
source) are outside the model. -/

/-- Characters kept by key sanitisation (`_get_cache_path`, line 137):
`c.isalnum() or c in "-_."` (ASCII reading of `str.isalnum`; the claims
only involve ASCII keys). -/
def keepChar (c : Char) : Bool := c.isAlphanum || c == '-' || c == '_' || c == '.'

/-- `DiskCache._get_cache_path` (lines 134-138): sanitised key plus
`.json`, relative to the cache directory. -/
def cache_path (key : String) : String :=
  String.mk (key.data.filter keepChar) ++ ".json"

structure DiskEntry (α : Type) where
  value : α
  timestamp : ℚ
  ttl : ℚ
  deriving DecidableEq

structure DiskCache (α : Type) where
  default_ttl : ℚ
  files : List (String × DiskEntry α)
  deriving DecidableEq

/-- `DiskCache.set` (lines 164-181): writes the entry file for the
sanitised key (overwriting any previous file at that path). -/
def DiskCache.set {α : Type} (d : DiskCache α) (now : ℚ) (key : String) (value : α)
    (ttl : Option ℚ) : DiskCache α :=
  let t := ttl.getD d.default_ttl
  ⟨d.default_ttl, dset d.files (cache_path key) ⟨value, now, t⟩⟩

/-- `DiskCache.get` (lines 140-162): reads the file at the sanitised
key; a lazily detected expired entry is unlinked and reported as a
miss. -/
def DiskCache.get {α : Type} (d : DiskCache α) (now : ℚ) (key : String) :
    Option α × DiskCache α :=
  match dget d.files (cache_path key) with
  | none => (none, d)
  | some e =>
      if e.ttl < now - e.timestamp then
        (none, ⟨d.default_ttl, ddel d.files (cache_path key)⟩)
      else (some e.value, d)
where
  ddel : List (String × DiskEntry α) → String → List (String × DiskEntry α)
    | [], _ => []
    | (k', v) :: rest, k => if k' = k then rest else (k', v) :: ddel rest k

/-- C10.  Disk-cache key sanitisation is not injective: the distinct
keys "a/b" and "ab" map to the same file, so a value stored under one is
returned for the other, and a later `set` under either key overwrites
the entry visible under both. -/
theorem C10_cache_key_sanitisation_collision :
    cache_path "a/b" = cache_path "ab" ∧
    "a/b" ≠ "ab" ∧
    (DiskCache.get (DiskCache.set (⟨3600, []⟩ : DiskCache String) 100 "a/b" "v1" none)
      100 "ab").1 = some "v1" ∧
    (DiskCache.get (DiskCache.set (DiskCache.set (⟨3600, []⟩ : DiskCache String)
      100 "a/b" "v1" none) 200 "ab" "v2" none) 200 "a/b").1 = some "v2" := by
  have hpath : cache_path "a/b" = "ab.json" := by decide
  have hpath2 : cache_path "ab" = "ab.json" := by decide
  refine ⟨by decide, by decide, ?_, ?_⟩ <;>
    simp [DiskCache.get, DiskCache.set, hpath, hpath2, dget, dset] <;> norm_num

/-! ## Direct keyword search (`recall_operation.py`, `_basic_search`)

The chunk store backing the search is the spec-modelled `ChunkStore`
below (`memory_store.py` is not among the sources; spec §4.1 specifies
`get_chunk` and filtered `list_chunks`). -/

/-- Modelled from the spec: the chunk store (spec §4.1) as a dict from
chunk id to chunk record. -/
structure ChunkStore where
  chunks : List (String × Chunk)
  deriving DecidableEq

/-- Modelled from the spec: `get_chunk(id)` (spec §4.1). -/
def get_chunk (st : ChunkStore) (id : String) : Option Chunk := dget st.chunks id

/-- Modelled from the spec: `list_chunks()` with no filters returns all
ids (spec §4.1); order fixed to store order. -/
def list_chunks_all (st : ChunkStore) : List String := st.chunks.map Prod.fst

/-- Modelled from the spec: `list_chunks(conversation_id=...)`
(spec §4.1, AND semantics with a single filter). -/
def list_chunks_conv (st : ChunkStore) (conv : String) : List String :=
  (st.chunks.filter (fun p => decide (p.2.metadata.conversation_id = conv))).map Prod.fst

/-- `RecallResult` (`recall_operation.py` lines 19-27). -/
structure RecallResult where
  answer : String
  confidence : ℚ
  source_chunks : List String
  traversal_path : List String
  iterations_used : Nat
  cost_usd : ℚ
  deriving DecidableEq

/-- `RecallOperation.QUERY_SYNONYMS` (lines 108-132). -/
def QUERY_SYNONYMS : List (String × List String) :=
  [("task", ["task", "bead", "issue", "work item", "todo"]),
   ("tracking", ["tracking", "management", "organization", "workflow"]),
   ("beads", ["beads", "tasks", "issues", "tickets"]),
   ("memory", ["memory", "storage", "remember", "recall", "chunk"]),
   ("remember", ["remember", "store", "save", "record"]),
   ("project", ["project", "meridian", "system", "brain"]),
   ("status", ["status", "state", "progress", "complete", "done"]),
   ("architecture", ["architecture", "design", "structure", "system"]),
   ("components", ["components", "parts", "modules", "pieces"]),
   ("test", ["test", "testing", "validate", "verify", "pytest"]),
   ("file", ["file", "document", "code", "script"]),
   ("format", ["format", "structure", "layout", "style"])]

/-- Python's `str.lower()` (character-wise ASCII lowering). -/
def pyLower (s : String) : String := String.mk (s.data.map Char.toLower)

/-- Python's `str.split()` with no separator: split on runs of
whitespace, producing no empty pieces. -/
def splitWsAux : List Char → List Char → List String
  | [], [] => []
  | [], acc => [String.mk acc.reverse]
  | c :: rest, acc =>
      if c.isWhitespace then
        if acc.isEmpty then splitWsAux rest []
        else String.mk acc.reverse :: splitWsAux rest []
      else splitWsAux rest (c :: acc)

def pySplitWs (s : String) : List String := splitWsAux s.data []

/-- `_expand_query` (lines 134-146): lowercase, split on whitespace,
then union in the synonym lists of every table row whose key or
synonyms contain a query term.  Set values are modelled in
first-occurrence order. -/
def expand_query (query : String) : List String :=
  let terms := pydedup (pySplitWs (pyLower query))
  pydedup (terms ++ (terms.map (fun term =>
    ((QUERY_SYNONYMS.filter (fun p => term == p.1 || p.2.contains term)).map
      Prod.snd).flatten)).flatten)

/-- One chunk's relevance score (lines 174-175):
`sum(1 for term in query_terms if term in content)` with `content` the
lowercased chunk content and `in` the substring test. -/
def chunk_score (query_terms : List String) (c : Chunk) : Nat :=
  query_terms.countP (fun term => decide (term.data <:+: (pyLower c.content).data))

/-- Candidate ids of `_basic_search` (lines 155-162): conversation
filter when a truthy `conversation_id` is supplied, else all chunks. -/
def basic_search_candidates (st : ChunkStore) (conversation_id : Option String) :
    List String :=
  match conversation_id with
  | some c => if c = "" then list_chunks_all st else list_chunks_conv st c
  | none => list_chunks_all st

/-- Scoring loop of `_basic_search` (lines 169-178): look up each
candidate, skip missing chunks, keep `(id, score, chunk)` for positive
scores. -/
def basic_search_matches (st : ChunkStore) (query_terms : List String) :
    List String → List (String × Nat × Chunk)
  | [] => []
  | cid :: rest =>
      match get_chunk st cid with
      | none => basic_search_matches st query_terms rest
      | some ch =>
          let score := chunk_score query_terms ch
          if 0 < score then (cid, score, ch) :: basic_search_matches st query_terms rest
          else basic_search_matches st query_terms rest

/-- Stable descending sort by score (line 181, `list.sort(key=…,
reverse=True)`), as insertion sort. -/
def insertByScoreDesc (x : String × Nat × Chunk) :
    List (String × Nat × Chunk) → List (String × Nat × Chunk)
  | [] => [x]
  | y :: rest =>
      if y.2.1 < x.2.1 then x :: y :: rest else y :: insertByScoreDesc x rest

def sortByScoreDesc : List (String × Nat × Chunk) → List (String × Nat × Chunk)
  | [] => []
  | x :: rest => insertByScoreDesc x (sortByScoreDesc rest)

/-- `RecallOperation._basic_search` (lines 148-204). -/
def basic_search (st : ChunkStore) (query : String) (conversation_id : Option String)
    (max_results : Nat) : RecallResult :=
  let query_terms := expand_query query
  let found := basic_search_matches st query_terms
    (basic_search_candidates st conversation_id)
  let top_matches := (sortByScoreDesc found).take max_results
  if top_matches.isEmpty then ⟨"No relevant memories found", 0, [], [], 0, 0⟩
  else
    let contents := top_matches.map (fun m => m.2.2.content)
    let answer := String.intercalate "\\n\\n" contents
    let avg := (top_matches.map (fun m => m.2.2.metadata.confidence)).sum / top_matches.length
    ⟨answer, avg, top_matches.map (fun m => m.1), [], 1, 0⟩

/-- C8.  When no candidate chunk scores above zero, the direct keyword
search returns (rather than raising) the zero-confidence "no results"
answer with an empty source-chunk list. -/
theorem C8_basic_search_empty_result (st : ChunkStore) (query : String)
    (conversation_id : Option String) (max_results : Nat)
    (h : ∀ cid ∈ basic_search_candidates st conversation_id, ∀ c,
      get_chunk st cid = some c → chunk_score (expand_query query) c = 0) :
    basic_search st query conversation_id max_results =
      ⟨"No relevant memories found", 0, [], [], 0, 0⟩ := by
  have hm : ∀ (ids : List String),
      (∀ cid ∈ ids, ∀ c, get_chunk st cid = some c →
        chunk_score (expand_query query) c = 0) →
      basic_search_matches st (expand_query query) ids = [] := by
    intro ids
    induction ids with
    | nil => intro _; rfl
    | cons cid rest ih =>
        intro hall
        rw [basic_search_matches]
        cases hg : get_chunk st cid with
        | none => exact ih (fun c hc => hall c (List.mem_cons_of_mem _ hc))
        | some ch =>
            have h0 := hall cid (List.mem_cons_self _ _) ch hg
            simp only [h0, Nat.lt_irrefl, if_false]
            exact ih (fun c hc => hall c (List.mem_cons_of_mem _ hc))
  simp only [basic_search]
  rw [hm _ h]
  simp [sortByScoreDesc]

theorem C8_basic_search_empty_result_witness :
    basic_search ⟨[("c1", ⟨"c1", "hello world", [], ⟨0, "cv", 1⟩, ⟨[], [], [], [], []⟩⟩)]⟩
      "zzzq" none 5 = ⟨"No relevant memories found", 0, [], [], 0, 0⟩ :=
  C8_basic_search_empty_result _ "zzzq" none 5 (by decide)

/-! ## Auto-Linker (`auto_linker.py`, class `AutoLinker`)

`link_on_create` and its helpers are translated from the source over the
spec-modelled `ChunkStore`.  Each of its three passes is a fold of a
step function over the candidate ids produced by the store queries; the
graph and store writes happen inside the step functions exactly as in
the source.  Timestamps are rational seconds (see the Chunk section);
`temporal_window` is the window in seconds (the source's
`timedelta(minutes=temporal_window_minutes)`). -/

/-- `AutoLinker._save_chunk` (lines 371-374): write the chunk record
under its id. -/
def save_chunk (st : ChunkStore) (c : Chunk) : ChunkStore :=
  ⟨dset st.chunks c.id c⟩

/-- Modelled from the spec: `list_chunks(conversation_id=…,
created_after=…, created_before=…)` (spec §4.1 AND semantics; spec §4.3
fixes the temporal window to `[created - window, created)`). -/
def list_chunks_conv_window (st : ChunkStore) (conv : String) (lo hi : ℚ) : List String :=
  (st.chunks.filter (fun p => decide (p.2.metadata.conversation_id = conv ∧
    lo ≤ p.2.metadata.created ∧ p.2.metadata.created < hi))).map Prod.fst

/-- Modelled from the spec: `tag_index.get_list(tag)` (spec §4.1's
incrementally maintained secondary tag index), the ids of chunks
carrying the tag. -/
def tag_index_get (st : ChunkStore) (tag : String) : List String :=
  (st.chunks.filter (fun p => decide (tag ∈ p.2.tags))).map Prod.fst

/-- `_find_conversation_chunks` (lines 376-391). -/
def find_conversation_chunks (st : ChunkStore) (conversation_id exclude : String) :
    List String :=
  (list_chunks_conv st conversation_id).filter (fun c => decide (c ≠ exclude))

/-- `_find_temporal_predecessors` (lines 393-416). -/
def find_temporal_predecessors (st : ChunkStore) (created window : ℚ)
    (conversation_id exclude : String) : List String :=
  (list_chunks_conv_window st conversation_id (created - window) created).filter
    (fun c => decide (c ≠ exclude))

/-- `_find_tag_related` (lines 418-440): union of the tag-index lists
over the chunk's tags (a set, modelled in first-occurrence order), with
the new chunk's own id discarded. -/
def find_tag_related (st : ChunkStore) (tags : List String) (exclude : String) :
    List String :=
  if tags.isEmpty then []
  else (pydedup ((tags.map (tag_index_get st)).flatten)).filter (fun c => decide (c ≠ exclude))

/-- `AutoLinker._add_reverse_link` (lines 338-359): append the reverse
entry to the stored target chunk's own list (for the two bidirectional
types only), persist it and record the graph edge. -/
def add_reverse_link (st : ChunkStore) (g : LinkGraph) (chunk_id target_id link_type : String) :
    ChunkStore × LinkGraph :=
  match get_chunk st chunk_id with
  | none => (st, g)
  | some chunk =>
      if link_type = "context_of" then
        if target_id ∈ chunk.links.context_of then (st, g)
        else
          let chunk := {chunk with links :=
            {chunk.links with context_of := chunk.links.context_of ++ [target_id]}}
          (save_chunk st chunk, add_link g chunk_id target_id link_type)
      else if link_type = "related_to" then
        if target_id ∈ chunk.links.related_to then (st, g)
        else
          let chunk := {chunk with links :=
            {chunk.links with related_to := chunk.links.related_to ++ [target_id]}}
          (save_chunk st chunk, add_link g chunk_id target_id link_type)
      else (st, g)

/-- `AutoLinker._add_related_to_link` (lines 361-369). -/
def add_related_to_link (st : ChunkStore) (g : LinkGraph) (target_id new_chunk_id : String) :
    ChunkStore × LinkGraph :=
  match get_chunk st target_id with
  | none => (st, g)
  | some chunk =>
      if new_chunk_id ∈ chunk.links.related_to then (st, g)
      else
        let chunk := {chunk with links :=
          {chunk.links with related_to := chunk.links.related_to ++ [new_chunk_id]}}
        (save_chunk st chunk, add_link g target_id new_chunk_id "related_to")

/-- Context-pass body of `link_on_create` (lines 301-306): append the
match to the new chunk's `context_of`, add the forward graph edge, and
establish the reverse direction on the stored match. -/
def context_step (acc : ChunkStore × LinkGraph × Chunk) (target_id : String) :
    ChunkStore × LinkGraph × Chunk :=
  let st := acc.1
  let g := acc.2.1
  let nc := acc.2.2
  if target_id ∈ nc.links.context_of then acc
  else
    let nc := {nc with links :=
      {nc.links with context_of := nc.links.context_of ++ [target_id]}}
    let g := add_link g nc.id target_id "context_of"
    let sg := add_reverse_link st g target_id nc.id "context_of"
    (sg.1, sg.2, nc)

/-- Temporal-pass body of `link_on_create` (lines 312-315): append to
`follows` and add the (unidirectional) graph edge. -/
def follows_step (nc_id : String) (acc : LinkGraph × Chunk) (target_id : String) :
    LinkGraph × Chunk :=
  let g := acc.1
  let nc := acc.2
  if target_id ∈ nc.links.follows then acc
  else
    ({nc with links := {nc.links with follows := nc.links.follows ++ [target_id]}} |>
      fun nc' => (add_link g nc_id target_id "follows", nc'))

/-- Tag-pass body of `link_on_create` (lines 319-326): skip matches
already linked as context, append to `related_to`, add the forward
graph edge and mirror onto the stored match. -/
def related_step (acc : ChunkStore × LinkGraph × Chunk) (target_id : String) :
    ChunkStore × LinkGraph × Chunk :=
  let st := acc.1
  let g := acc.2.1
  let nc := acc.2.2
  if target_id ∈ nc.links.context_of then acc
  else if target_id ∈ nc.links.related_to then acc
  else
    let nc := {nc with links :=
      {nc.links with related_to := nc.links.related_to ++ [target_id]}}
    let g := add_link g nc.id target_id "related_to"
    let sg := add_related_to_link st g target_id nc.id
    (sg.1, sg.2, nc)

/-- `AutoLinker.link_on_create` (lines 277-336): three passes —
conversation context (bidirectional), temporal predecessors
(unidirectional), shared tags (bidirectional) — then the updated new
chunk is persisted.  Returns the updated store, graph and chunk. -/
def link_on_create (window : ℚ) (st : ChunkStore) (g : LinkGraph) (new_chunk : Chunk) :
    ChunkStore × LinkGraph × Chunk :=
  let chunk_id := new_chunk.id
  let conversation_id := new_chunk.metadata.conversation_id
  let created := new_chunk.metadata.created
  let tags := new_chunk.tags
  let context_chunks := find_conversation_chunks st conversation_id chunk_id
  let acc1 := context_chunks.foldl context_step (st, g, new_chunk)
  let predecessor_chunks := find_temporal_predecessors acc1.1 created window
    conversation_id chunk_id
  let acc2 := predecessor_chunks.foldl (follows_step chunk_id) (acc1.2.1, acc1.2.2)
  let related_chunks := find_tag_related acc1.1 tags chunk_id
  let acc3 := related_chunks.foldl related_step (acc1.1, acc2.1, acc2.2)
  (save_chunk acc3.1 acc3.2.2, acc3.2.1, acc3.2.2)

theorem foldl_preserve {β γ : Type} (step : γ → β → γ) (Q : γ → Prop)
    (h : ∀ acc t, Q acc → Q (step acc t)) :
    ∀ (l : List β) (acc : γ), Q acc → Q (l.foldl step acc) := by
  intro l
  induction l with
  | nil => exact fun acc hq => hq
  | cons t rest ih => exact fun acc hq => ih _ (h acc t hq)

theorem foldl_establish {β γ : Type} (step : γ → β → γ) (P : γ → Prop) (x : β)
    (hpres : ∀ acc t, P acc → P (step acc t))
    (hest : ∀ acc, P (step acc x)) :
    ∀ (l : List β) (acc : γ), x ∈ l → P (l.foldl step acc) := by
  intro l
  induction l with
  | nil =>
      intro acc hx
      simp at hx
  | cons t rest ih =>
      intro acc hx
      rcases List.mem_cons.mp hx with rfl | hx'
      · exact foldl_preserve step P hpres rest _ (hest acc)
      · exact ih _ hx'

theorem mem_dset {K V : Type} [DecidableEq K] {m : List (K × V)} {k : K} {v : V}
    {p : K × V} (h : p ∈ dset m k v) : p = (k, v) ∨ p ∈ m := by
  induction m with
  | nil =>
      simp [dset] at h
      exact Or.inl h
  | cons q rest ih =>
      obtain ⟨k', w⟩ := q
      by_cases h0 : k' = k
      · subst h0
        simp only [dset, if_true] at h
        rcases List.mem_cons.mp h with rfl | h'
        · exact Or.inl rfl
        · exact Or.inr (List.mem_cons_of_mem _ h')
      · simp only [dset, h0, if_false] at h
        rcases List.mem_cons.mp h with rfl | h'
        · exact Or.inr (List.mem_cons_self _ _)
        · rcases ih h' with h'' | h''
          · exact Or.inl h''
          · exact Or.inr (List.mem_cons_of_mem _ h'')

/-- Store invariant: every record is filed under its own chunk id. -/
def StoreWF (st : ChunkStore) : Prop := ∀ p ∈ st.chunks, p.2.id = p.1

theorem StoreWF.save {st : ChunkStore} (h : StoreWF st) (c : Chunk) :
    StoreWF (save_chunk st c) := by
  intro p hp
  rcases mem_dset hp with rfl | hp'
  · rfl
  · exact h p hp'

theorem StoreWF.dget_id {st : ChunkStore} (h : StoreWF st) {k : String} {c : Chunk}
    (hc : dget st.chunks k = some c) : c.id = k :=
  h (k, c) (dget_mem hc)

theorem dget_save_ne (st : ChunkStore) (c : Chunk) {k : String} (h : k ≠ c.id) :
    dget (save_chunk st c).chunks k = dget st.chunks k :=
  dget_dset_ne _ _ _ _ h

theorem dget_save_self (st : ChunkStore) (c : Chunk) :
    dget (save_chunk st c).chunks c.id = some c :=
  dget_dset_self _ _ _

theorem add_reverse_link_wf {st : ChunkStore} (g : LinkGraph) (cid tid lt : String)
    (h : StoreWF st) : StoreWF (add_reverse_link st g cid tid lt).1 := by
  unfold add_reverse_link
  cases hc : get_chunk st cid with
  | none => exact h
  | some chunk =>
      by_cases h1 : lt = "context_of"
      · by_cases h2 : tid ∈ chunk.links.context_of
        · simp only [h1, if_true, h2]
          exact h
        · simp only [h1, if_true, h2, if_false]
          exact h.save _
      · by_cases h3 : lt = "related_to"
        · by_cases h2 : tid ∈ chunk.links.related_to
          · simp only [h1, if_false, h3, if_true, h2]
            exact h
          · simp only [h1, if_false, h3, if_true, h2]
            exact h.save _
        · simp only [h1, if_false, h3]
          exact h

theorem add_reverse_link_frame {st : ChunkStore} (g : LinkGraph) (cid tid lt : String)
    (hwf : StoreWF st) {k : String} (hk : k ≠ cid) :
    dget (add_reverse_link st g cid tid lt).1.chunks k = dget st.chunks k := by
  unfold add_reverse_link
  cases hc : get_chunk st cid with
  | none => rfl
  | some chunk =>
      have hid : chunk.id = cid := hwf.dget_id hc
      by_cases h1 : lt = "context_of"
      · subst h1
        by_cases h2 : tid ∈ chunk.links.context_of
        · simp [h2]
        · simp only [if_true, h2, if_false]
          exact dget_save_ne _ _ (by simp [hid, hk])
      · by_cases h3 : lt = "related_to"
        · subst h3
          by_cases h2 : tid ∈ chunk.links.related_to
          · simp [h2]
          · simp only [String.reduceEq, if_false, if_true, h2]
            exact dget_save_ne _ _ (by simp [hid, hk])
        · simp only [if_neg h1, if_neg h3]

theorem add_reverse_link_ctx_self {st : ChunkStore} (g : LinkGraph) (cid tid : String)
    (hwf : StoreWF st) {c : Chunk} (hc : get_chunk st cid = some c) :
    ∃ c', dget (add_reverse_link st g cid tid "context_of").1.chunks cid = some c' ∧
      tid ∈ c'.links.context_of := by
  unfold add_reverse_link
  rw [hc]
  have hid : c.id = cid := hwf.dget_id hc
  by_cases h2 : tid ∈ c.links.context_of
  · simp only [if_true, h2]
    exact ⟨c, hc, h2⟩
  · simp only [if_true, h2, if_false]
    refine ⟨{c with links := {c.links with context_of := c.links.context_of ++ [tid]}},
      ?_, by simp⟩
    have hsave := dget_save_self st
      ({c with links := {c.links with context_of := c.links.context_of ++ [tid]}})
    rw [← hid]
    exact hsave

theorem add_related_to_link_wf {st : ChunkStore} (g : LinkGraph) (tid ncid : String)
    (h : StoreWF st) : StoreWF (add_related_to_link st g tid ncid).1 := by
  unfold add_related_to_link
  cases hc : get_chunk st tid with
  | none => exact h
  | some chunk =>
      by_cases h2 : ncid ∈ chunk.links.related_to
      · simp only [h2, if_true]
        exact h
      · simp only [h2, if_false]
        exact h.save _

theorem add_related_to_link_frame {st : ChunkStore} (g : LinkGraph) (tid ncid : String)
    (hwf : StoreWF st) {k : String} (hk : k ≠ tid) :
    dget (add_related_to_link st g tid ncid).1.chunks k = dget st.chunks k := by
  unfold add_related_to_link
  cases hc : get_chunk st tid with
  | none => rfl
  | some chunk =>
      have hid : chunk.id = tid := hwf.dget_id hc
      by_cases h2 : ncid ∈ chunk.links.related_to
      · simp only [h2, if_true]
      · simp only [h2, if_false]
        exact dget_save_ne _ _ (by simp [hid, hk])

theorem context_step_ctx_mono {acc : ChunkStore × LinkGraph × Chunk} {t x : String}
    (h : x ∈ acc.2.2.links.context_of) : x ∈ (context_step acc t).2.2.links.context_of := by
  unfold context_step
  by_cases ht : t ∈ acc.2.2.links.context_of
  · simp only [ht, if_true]
    exact h
  · simp only [ht, if_false]
    exact List.mem_append_left _ h

theorem context_step_ctx_est (acc : ChunkStore × LinkGraph × Chunk) (t : String) :
    t ∈ (context_step acc t).2.2.links.context_of := by
  unfold context_step
  by_cases ht : t ∈ acc.2.2.links.context_of
  · simp only [ht, if_true]
  · simp only [ht, if_false]
    simp

/-- Invariant carried through the context pass: a well-formed store
containing an entry at `c1id`, an unchanged new-chunk id, and — as soon
as `c1id` has been appended to the new chunk's `context_of` — the
stored `c1id` record lists the new chunk in *its* `context_of`. -/
def CtxInv (c1id ncid : String) (acc : ChunkStore × LinkGraph × Chunk) : Prop :=
  StoreWF acc.1 ∧ (dget acc.1.chunks c1id).isSome ∧ acc.2.2.id = ncid ∧
  (c1id ∈ acc.2.2.links.context_of →
    ∃ c', dget acc.1.chunks c1id = some c' ∧ ncid ∈ c'.links.context_of)

theorem context_step_inv {c1id ncid : String} (acc : ChunkStore × LinkGraph × Chunk)
    (t : String) (h : CtxInv c1id ncid acc) : CtxInv c1id ncid (context_step acc t) := by
  obtain ⟨hwf, hpres, hid, himp⟩ := h
  unfold context_step
  by_cases ht : t ∈ acc.2.2.links.context_of
  · simp only [ht, if_true]
    exact ⟨hwf, hpres, hid, himp⟩
  · simp only [ht, if_false]
    refine ⟨add_reverse_link_wf _ _ _ _ hwf, ?_, hid, ?_⟩
    · by_cases htc : c1id = t
      · subst htc
        cases hg : dget acc.1.chunks c1id with
        | none => rw [hg] at hpres; simp at hpres
        | some c' =>
            obtain ⟨c'', hget, -⟩ := add_reverse_link_ctx_self
              (add_link acc.2.1 acc.2.2.id c1id "context_of") c1id acc.2.2.id hwf hg
            rw [hget]
            rfl
      · rw [add_reverse_link_frame _ _ _ _ hwf htc]
        exact hpres
    · intro hmem
      simp only at hmem
      rcases List.mem_append.mp hmem with hold | hnew
      · have htc : c1id ≠ t := fun he => ht (he ▸ hold)
        obtain ⟨c', hdget, hmemc⟩ := himp hold
        refine ⟨c', ?_, hmemc⟩
        rw [add_reverse_link_frame _ _ _ _ hwf htc]
        exact hdget
      · have htc : c1id = t := by simpa using hnew
        subst htc
        cases hg : dget acc.1.chunks c1id with
        | none => rw [hg] at hpres; simp at hpres
        | some c' =>
            obtain ⟨c'', hget, hmemc⟩ := add_reverse_link_ctx_self
              (add_link acc.2.1 acc.2.2.id c1id "context_of") c1id acc.2.2.id hwf hg
            exact ⟨c'', hget, hid ▸ hmemc⟩

theorem follows_fold_frame (ncid : String) (l : List String) (g : LinkGraph) (nc : Chunk) :
    (l.foldl (follows_step ncid) (g, nc)).2.links.context_of = nc.links.context_of ∧
    (l.foldl (follows_step ncid) (g, nc)).2.id = nc.id := by
  have := foldl_preserve (follows_step ncid)
    (fun a => a.2.links.context_of = nc.links.context_of ∧ a.2.id = nc.id)
    (by
      intro acc t h
      unfold follows_step
      by_cases ht : t ∈ acc.2.links.follows
      · simp only [ht, if_true]
        exact h
      · simp only [ht, if_false]
        exact h)
    l (g, nc) ⟨rfl, rfl⟩
  exact this

/-- Invariant carried through the tag pass: the new chunk already lists
`c1id` as context (so the pass skips it), and the stored `c1id` record
keeps the new chunk's id in its `context_of`. -/
def TagInv (c1id ncid : String) (acc : ChunkStore × LinkGraph × Chunk) : Prop :=
  StoreWF acc.1 ∧ c1id ∈ acc.2.2.links.context_of ∧
  (∃ c', dget acc.1.chunks c1id = some c' ∧ ncid ∈ c'.links.context_of) ∧
  acc.2.2.id = ncid

theorem related_step_inv {c1id ncid : String} (acc : ChunkStore × LinkGraph × Chunk)
    (t : String) (h : TagInv c1id ncid acc) : TagInv c1id ncid (related_step acc t) := by
  obtain ⟨hwf, hctx, hrec, hid⟩ := h
  unfold related_step
  by_cases ht : t ∈ acc.2.2.links.context_of
  · simp only [ht, if_true]
    exact ⟨hwf, hctx, hrec, hid⟩
  · have htc : c1id ≠ t := fun he => ht (he ▸ hctx)
    by_cases hr : t ∈ acc.2.2.links.related_to
    · simp only [ht, if_false, hr, if_true]
      exact ⟨hwf, hctx, hrec, hid⟩
    · simp only [ht, if_false, hr]
      refine ⟨add_related_to_link_wf _ _ _ hwf, hctx, ?_, hid⟩
      obtain ⟨c', hdget, hmemc⟩ := hrec
      refine ⟨c', ?_, hmemc⟩
      rw [add_related_to_link_frame _ _ _ hwf htc]
      exact hdget

theorem mem_list_chunks_conv {st : ChunkStore} {k conv : String} {c : Chunk}
    (h : (k, c) ∈ st.chunks) (hconv : c.metadata.conversation_id = conv) :
    k ∈ list_chunks_conv st conv :=
  List.mem_map.mpr ⟨(k, c), List.mem_filter.mpr ⟨h, by simp [hconv]⟩, rfl⟩

/-- C5.  For a chunk `c₁` stored under conversation `C` and a fresh
chunk `nc` in the same conversation created afterwards, `link_on_create`
puts `c₁.id` into `nc`'s `context_of` and also appends `nc.id` to the
*stored* record of `c₁`'s own `context_of` (bidirectionality
round-trip). -/
theorem C5_conversation_context_roundtrip (window : ℚ) (st : ChunkStore) (g : LinkGraph)
    (c₁ nc : Chunk)
    (hwf : StoreWF st)
    (hc : dget st.chunks c₁.id = some c₁)
    (hconv : c₁.metadata.conversation_id = nc.metadata.conversation_id)
    (hne : nc.id ≠ c₁.id)
    (hfresh : nc.links = ⟨[], [], [], [], []⟩)
    (horder : c₁.metadata.created ≤ nc.metadata.created) :
    c₁.id ∈ (link_on_create window st g nc).2.2.links.context_of ∧
    ∃ c', dget (link_on_create window st g nc).1.chunks c₁.id = some c' ∧
      nc.id ∈ c'.links.context_of := by
  have hmem_ctx : c₁.id ∈ find_conversation_chunks st nc.metadata.conversation_id nc.id := by
    unfold find_conversation_chunks
    refine List.mem_filter.mpr ⟨mem_list_chunks_conv (dget_mem hc) hconv, ?_⟩
    simp [Ne.symm hne]
  simp only [link_on_create]
  set A1 := (find_conversation_chunks st nc.metadata.conversation_id nc.id).foldl
    context_step (st, g, nc) with hA1
  set P := find_temporal_predecessors A1.1 nc.metadata.created window
    nc.metadata.conversation_id nc.id with hP
  set A2 := P.foldl (follows_step nc.id) (A1.2.1, A1.2.2) with hA2
  set R := find_tag_related A1.1 nc.tags nc.id with hR
  set A3 := R.foldl related_step (A1.1, A2.1, A2.2) with hA3
  have hinv1 : CtxInv c₁.id nc.id A1 := by
    rw [hA1]
    refine foldl_preserve context_step (CtxInv c₁.id nc.id)
      (fun acc t h => context_step_inv acc t h) _ _ ⟨hwf, ?_, rfl, ?_⟩
    · rw [hc]
      rfl
    · intro hx
      rw [hfresh] at hx
      simp at hx
  have hP1 : c₁.id ∈ A1.2.2.links.context_of := by
    rw [hA1]
    exact foldl_establish context_step (fun acc => c₁.id ∈ acc.2.2.links.context_of) c₁.id
      (fun acc t h => context_step_ctx_mono h) (fun acc => context_step_ctx_est acc c₁.id)
      _ _ hmem_ctx
  obtain ⟨hwf1, hpres1, hid1, himp1⟩ := hinv1
  obtain ⟨c', hdget1, hmem1⟩ := himp1 hP1
  have hfr2 : A2.2.links.context_of = A1.2.2.links.context_of ∧ A2.2.id = A1.2.2.id := by
    rw [hA2]
    exact follows_fold_frame nc.id P A1.2.1 A1.2.2
  have hinv3 : TagInv c₁.id nc.id A3 := by
    rw [hA3]
    refine foldl_preserve related_step (TagInv c₁.id nc.id)
      (fun acc t h => related_step_inv acc t h) _ _ ⟨hwf1, ?_, ⟨c', hdget1, hmem1⟩, ?_⟩
    · rw [hfr2.1]
      exact hP1
    · rw [hfr2.2]
      exact hid1
  obtain ⟨hwf3, hctx3, ⟨c'', hdget3, hmem3⟩, hid3⟩ := hinv3
  constructor
  · exact hctx3
  · refine ⟨c'', ?_, hmem3⟩
    have hkey : c₁.id ≠ A3.2.2.id := by
      rw [hid3]
      exact Ne.symm hne
    rw [dget_save_ne _ _ hkey]
    exact hdget3

theorem C5_conversation_context_roundtrip_witness :
    "c1" ∈ (link_on_create 300 ⟨[("c1", ⟨"c1", "one", [], ⟨0, "conv-1", 1⟩,
      ⟨[], [], [], [], []⟩⟩)]⟩ ⟨[], []⟩
      ⟨"c2", "two", [], ⟨60, "conv-1", 1⟩, ⟨[], [], [], [], []⟩⟩).2.2.links.context_of ∧
    ∃ c', dget (link_on_create 300 ⟨[("c1", ⟨"c1", "one", [], ⟨0, "conv-1", 1⟩,
      ⟨[], [], [], [], []⟩⟩)]⟩ ⟨[], []⟩
      ⟨"c2", "two", [], ⟨60, "conv-1", 1⟩, ⟨[], [], [], [], []⟩⟩).1.chunks "c1" = some c' ∧
      "c2" ∈ c'.links.context_of :=
  C5_conversation_context_roundtrip 300 ⟨[("c1", ⟨"c1", "one", [], ⟨0, "conv-1", 1⟩,
    ⟨[], [], [], [], []⟩⟩)]⟩ ⟨[], []⟩
    ⟨"c1", "one", [], ⟨0, "conv-1", 1⟩, ⟨[], [], [], [], []⟩⟩
    ⟨"c2", "two", [], ⟨60, "conv-1", 1⟩, ⟨[], [], [], [], []⟩⟩
    (by
      intro p hp
      simp only [List.mem_singleton] at hp
      subst hp
      rfl)
    (by decide) (by decide) (by decide) (by decide) (by norm_num)

end Meridian
